import Mathlib

set_option linter.unnecessarySimpa false

/-!
Verification of the tailwindplus-downloader repository against its
natural-language specification.

The development shallowly embeds the relevant parts of the two programs
(`tailwindplus-download.js` and the `tailwindplus-diff.sh` script shown in
the repository README) as executable Lean definitions, and proves or
refutes the frozen specification claims about them.

Layout: all definitions first, then all lemmas and theorems.
-/

/- ====================================================================
   DEFINITIONS
   ==================================================================== -/

/-- Lexicographic comparison of character lists, modelling the default
JavaScript string comparison used by `Array.prototype.sort()` in
`findUrlBasePath` (`tailwindplus-download.js` line 333).  JS compares
UTF-16 code units; we compare characters, which agrees on the
basic multilingual plane. -/
def lexLe : List Char → List Char → Bool
  | [], _ => true
  | _ :: _, [] => false
  | a :: as, b :: bs => if a < b then true else if b < a then false else lexLe as bs

/-- String comparison wrapper for `lexLe`. -/
def strLe (s t : String) : Bool := lexLe s.data t.data

/-- The index-wise common-character scan of `findUrlBasePath`
(`tailwindplus-download.js` lines 339-343): walk the two lists while the
characters at the current index agree, returning the common run. -/
def commonPre : List Char → List Char → List Char
  | a :: as, b :: bs => if a = b then a :: commonPre as bs else []
  | _, _ => []

/-- `IsPre p l` : `p` is an initial segment of `l`. -/
def IsPre (p l : List Char) : Prop := ∃ t, p ++ t = l

/-- Shallow embedding of `findUrlBasePath` (`tailwindplus-download.js`
lines 328-344): empty input gives `""`, a singleton is returned unchanged,
otherwise a copy of the input is sorted lexicographically and the common
character run of the first and last sorted elements is returned. -/
def findUrlBasePath (urls : List String) : String :=
  match urls with
  | [] => ""
  | [u] => u
  | _ =>
    let sorted := urls.insertionSort (fun s t => strLe s t = true)
    let first := sorted.headD ""
    let last := sorted.getLastD ""
    ⟨commonPre first.data last.data⟩

/-- In-place sort of the array stored at index `i` of a heap of JS arrays;
models `Array.prototype.sort()` mutating its receiver. -/
def sortInPlace (h : List (List String)) (i : Nat) : List (List String) :=
  h.set i ((h.getD i []).insertionSort (fun s t => strLe s t = true))

/-- Heap-passing embedding of `findUrlBasePath` making the JS aliasing
explicit: the caller's array lives at index `ref` of `h`; the body of the
source function first allocates a fresh copy (`[...urls]`, modelled by
appending a new cell) and applies the mutating `.sort()` to the copy,
never to the caller's cell.  Returns the result together with the final
heap. -/
def findUrlBasePathHeap (h : List (List String)) (ref : Nat) :
    String × List (List String) :=
  if (h.getD ref []).length = 0 then ("", h)
  else if (h.getD ref []).length = 1 then ((h.getD ref []).headD "", h)
  else
    ((⟨commonPre
        (((sortInPlace (h ++ [h.getD ref []]) h.length).getD h.length []).headD "").data
        (((sortInPlace (h ++ [h.getD ref []]) h.length).getD h.length []).getLastD "").data⟩ :
        String),
      sortInPlace (h ++ [h.getD ref []]) h.length)

/-- A DOM element matched by the level-2 selector `li :is(p:first-child, a)`
in `productSectionToNamesAndPageUrls` (`tailwindplus-download.js` lines
377-390): an anchor (contributing its `href`) or a paragraph
(contributing its text content). -/
inductive SectionElem : Type
  | anchor (href : String)
  | para (text : String)
deriving DecidableEq

/-- The mapping step of the level-2 extractor
(`tailwindplus-download.js` line 381): anchors give their link target,
paragraphs their text content. -/
def elemValue : SectionElem → String
  | .anchor h => h
  | .para t => t

/-- JavaScript object property assignment `obj[k] = v` on an object
modelled as an association list: overwrite in place when the key exists,
otherwise append at the end (JS property insertion order). -/
def objInsert (m : List (String × String)) (k v : String) :
    List (String × String) :=
  if m.any (fun p => p.1 == k) then
    m.map (fun p => if p.1 == k then (k, v) else p)
  else m ++ [(k, v)]

/-- Shallow embedding of `productSectionToNamesAndPageUrls`
(`tailwindplus-download.js` lines 377-390): map each matched element to a
string (href for `A` nodes, text for `P` nodes), then reduce with index,
performing `obj[item] = array[index - 1]` at every odd index. -/
def productSectionToNamesAndPageUrls (elems : List SectionElem) :
    List (String × String) :=
  let array := elems.map elemValue
  array.enum.foldl
    (fun obj p =>
      if p.1 % 2 = 1 then objInsert obj p.2 (array.getD (p.1 - 1) "") else obj)
    []

/-- The odd-index reduce of the level-2 extractor, written as direct
recursion: consecutive pairs `v, k` of the mapped array contribute an
assignment `obj[k] = v`.  Used to characterise the fold. -/
def pairsOf : List String → List (String × String)
  | v :: k :: rest => (k, v) :: pairsOf rest
  | _ => []

/-- Left fold of JS object assignments. -/
def insertAll (obj : List (String × String)) (l : List (String × String)) :
    List (String × String) :=
  l.foldl (fun o kv => objInsert o kv.1 kv.2) obj

/-- An alternating run in which each link precedes its label: for each
pair `(label, url)` the anchor appears first (in document order) and the
labelling paragraph follows it. -/
def mkLinkLabelRun (ps : List (String × String)) : List SectionElem :=
  ps.flatMap (fun p => [.anchor p.2, .para p.1])

/-- An alternating run in which each label precedes its link, the premise
of the claim about the level-2 extractor. -/
def mkLabelLinkRun (ps : List (String × String)) : List SectionElem :=
  ps.flatMap (fun p => [.para p.1, .anchor p.2])

/-- One `section[id^="component-"]` block of a components page, as seen by
the in-page closure of `getComponentsAndData` (`tailwindplus-download.js`
lines 409-437): its `h2` heading text, whether the "view code" button
exists and its click succeeds, and the `pre code` text when that element
is readable (`none` models a failing read). -/
structure ComponentBlock where
  name : String
  revealOk : Bool
  code : Option String
deriving DecidableEq

/-- `componentSectionToNameAndData` (`tailwindplus-download.js` lines
414-422): click the code button (rejecting when the button is missing or
the click throws), wait, then read the heading and the code text
(rejecting when the `pre code` element is missing). -/
def componentSectionToNameAndData (b : ComponentBlock) :
    Except String (String × String) :=
  if b.revealOk then
    match b.code with
    | none => .error "code read failed"
    | some c => .ok (b.name, c)
  else .error "reveal failed"

/-- The async `reduce` chain of `getComponentsAndData`
(`tailwindplus-download.js` lines 424-431): each step awaits the
accumulated object and then the current block's data, so the first
rejection aborts the whole chain and blocks after a failing one are never
processed. -/
def pageEvaluate (acc : List (String × String)) :
    List ComponentBlock → Except String (List (String × String))
  | [] => .ok acc
  | b :: bs =>
    match componentSectionToNameAndData b with
    | .error e => .error e
    | .ok kv => pageEvaluate (objInsert acc kv.1 kv.2) bs

/-- `getComponentsAndData` (`tailwindplus-download.js` lines 409-437):
evaluate the reduce chain in the page; any rejection is caught by the
surrounding try/catch, which logs the error and returns the empty
object. -/
def getComponentsAndData (blocks : List ComponentBlock) :
    List (String × String) :=
  match pageEvaluate [] blocks with
  | .error _ => []
  | .ok m => m

/-- The behaviour of one Group (subsection) during a traversal run: its
components-page URL, whether `page.goto(componentsUrl)` reaches
network-idle within its timeout, the component blocks found on the page,
and whether the closing `page.goBack()` succeeds
(`tailwindplus-download.js` lines 239-250). -/
structure GroupSpec where
  url : String
  navOk : Bool
  blocks : List ComponentBlock
  goBackOk : Bool
deriving DecidableEq

/-- A value held by a Group (subsection) node of the catalog tree. -/
inductive GroupNode : Type
  | placeholder (url : String)
  | components (m : List (String × String))
  | errorMarker (msg : String)
deriving DecidableEq

/-- The sequence of assignments the orchestrator performs at one Group
node (`tailwindplus-download.js` lines 240-249): on navigation failure the
only write is the error marker from the catch; on navigation success the
extracted components are assigned (line 244), and when the subsequent
`goBack` (line 245) then fails, the same catch assigns an error marker
over the already-stored components (line 248). -/
def groupWrites (g : GroupSpec) : List GroupNode :=
  if g.navOk then
    GroupNode.components (getComponentsAndData g.blocks) ::
      (if g.goBackOk then [] else [GroupNode.errorMarker "goBack failed"])
  else [GroupNode.errorMarker "navigation failed"]

/-- The final value of a Group node after its iteration of the subsection
loop: the last write performed at it. -/
def runGroup (g : GroupSpec) : GroupNode :=
  (groupWrites g).getLastD (GroupNode.placeholder g.url)

/-- The behaviour of one product Category during a run: the base URL
computed for its placeholder, whether `page.goto(productPageUrl)`
succeeds, whether the section-extraction `evaluate` succeeds, and the
Sections (each a named list of named Groups) of its product page
(`tailwindplus-download.js` lines 228-258). -/
structure ProductSpec where
  baseUrl : String
  navOk : Bool
  sectionsOk : Bool
  sections : List (String × List (String × GroupSpec))
deriving DecidableEq

/-- A value held by a Category node of the catalog tree. -/
inductive CatNode : Type
  | placeholder (url : String)
  | error (msg : String)
  | sections (m : List (String × List (String × GroupNode)))
deriving DecidableEq

/-- The skeleton assigned at line 236 by `getProductSectionsAndPageUrls`:
every Group key initially holds its components-page URL placeholder. -/
def initialSections (secs : List (String × List (String × GroupSpec))) :
    List (String × List (String × GroupNode)) :=
  secs.map (fun s => (s.1, s.2.map (fun g => (g.1, GroupNode.placeholder g.2.url))))

/-- The JS nested assignment
`productHierarchy[product][productSection][subSection] = v`
(lines 244 and 248): update the Group entry `gn` inside the Section entry
`sn` of the section mapping. -/
def setGroup (S : List (String × List (String × GroupNode))) (sn gn : String)
    (v : GroupNode) : List (String × List (String × GroupNode)) :=
  S.map (fun s =>
    if s.1 == sn then
      (s.1, s.2.map (fun q => if q.1 == gn then (q.1, v) else q))
    else s)

/-- The two nested loops over Sections and Groups
(`tailwindplus-download.js` lines 238-251): starting from the skeleton of
line 236, apply every write of each Group in program order. -/
def runSections (secs : List (String × List (String × GroupSpec))) :
    List (String × List (String × GroupNode)) :=
  secs.foldl
    (fun S s =>
      s.2.foldl
        (fun S2 g =>
          (groupWrites g.2).foldl (fun S3 w => setGroup S3 s.1 g.1 w) S2)
        S)
    (initialSections secs)

/-- One iteration of the product loop (`tailwindplus-download.js` lines
228-258): product-page navigation failure or section-extraction failure
lands in the outer catch, which replaces the whole Category with an error
marker (line 254); otherwise the Sections are expanded by the nested
loops. -/
def runProduct (p : ProductSpec) : CatNode :=
  if p.navOk then
    if p.sectionsOk then CatNode.sections (runSections p.sections)
    else CatNode.error "section extraction failed"
  else CatNode.error "navigation failed"

/-- The product loop of `scrapeTailwindPlus` (`tailwindplus-download.js`
lines 203-269): the hierarchy starts as the name→baseUrl placeholder
mapping built at line 222, and each product's entry is overwritten with
the result of processing that product. -/
def scrapeTailwindPlus (site : List (String × ProductSpec)) :
    List (String × CatNode) :=
  site.foldl
    (fun H p => H.map (fun q => if q.1 == p.1 then (q.1, runProduct p.2) else q))
    (site.map (fun p => (p.1, CatNode.placeholder p.2.baseUrl)))

/-- Look up a key in a JS-object association list. -/
def lookupKey {β : Type} (l : List (String × β)) (k : String) : Option β :=
  (l.find? (fun q => q.1 == k)).map Prod.snd

/-- The section mapping of a Category node, when it has one. -/
def catSections : CatNode → Option (List (String × List (String × GroupNode)))
  | CatNode.sections S => some S
  | _ => none

/-- Look up the value of a Group node in a scraped tree. -/
def treeValue (tree : List (String × CatNode)) (pn sn gn : String) :
    Option GroupNode :=
  (lookupKey tree pn).bind fun c =>
    (catSections c).bind fun S =>
      (lookupKey S sn).bind fun m => lookupKey m gn

/-- Look up the `GroupSpec` at a path of the site description. -/
def siteGroupSpec (site : List (String × ProductSpec)) (pn sn gn : String) :
    Option GroupSpec :=
  (lookupKey site pn).bind fun p =>
    (lookupKey p.sections sn).bind fun gs => lookupKey gs gn

/-- The expected value of a Group node of the final tree, computed from
the site description alone: present exactly when the enclosing product
navigates and extracts its sections successfully, and then equal to the
outcome of that Group's own iteration. -/
def treeValueSpec (site : List (String × ProductSpec)) (pn sn gn : String) :
    Option GroupNode :=
  (lookupKey site pn).bind fun p =>
    if p.navOk && p.sectionsOk then
      (lookupKey p.sections sn).bind fun gs =>
        (lookupKey gs gn).map runGroup
    else none

/-- Replace the `GroupSpec` at one path of the site description, leaving
every other Group untouched (the failure-injection operator). -/
def updateGroupSpec (site : List (String × ProductSpec)) (pn sn gn : String)
    (g2 : GroupSpec) : List (String × ProductSpec) :=
  site.map (fun q =>
    if q.1 == pn then
      (q.1, { q.2 with sections := q.2.sections.map (fun s =>
        if s.1 == sn then
          (s.1, s.2.map (fun q2 => if q2.1 == gn then (q2.1, g2) else q2))
        else s) })
    else q)

/-- Key uniqueness of the site description, as JS objects guarantee for
the extracted hierarchies: product names, section names within a product
and group names within a section are duplicate-free. -/
def SiteKeysNodup (site : List (String × ProductSpec)) : Prop :=
  (site.map Prod.fst).Nodup ∧
  ∀ q ∈ site, (q.2.sections.map Prod.fst).Nodup ∧
    ∀ s ∈ q.2.sections, (s.2.map Prod.fst).Nodup

/-- The runtime environment of one invocation of the downloader: CLI
mode, cookie-store state, whether the interactive login completes within
its timeout, whether the root-page navigation reaches network idle, and
the site behaviour for the product loop. -/
structure RunEnv where
  helpFlag : Bool
  authFlag : Bool
  cookiesFileExists : Bool
  loginOk : Bool
  rootNavOk : Bool
  site : List (String × ProductSpec)

/-- Outcome of the whole Node.js process: either `process.exit(code)` was
called, or the event loop drained and the process exited with `code`. -/
inductive RunOutcome : Type
  | exited (code : Nat)
  | completed (code : Nat)
deriving DecidableEq

/-- Result of `handleAuthentication` (`tailwindplus-download.js` lines
444-467): with `--auth`, interactive login either yields cookies or the
login wait times out and `saveCookies` rejects; without `--auth`, cookies
are loaded from the store, a missing store calling `process.exit(1)`. -/
inductive AuthResult : Type
  | cookies
  | exit1
  | rejected (msg : String)
deriving DecidableEq

/-- `handleAuthentication` (`tailwindplus-download.js` lines 444-467). -/
def handleAuthentication (env : RunEnv) : AuthResult :=
  if env.authFlag then
    if env.loginOk then .cookies else .rejected "login timeout"
  else
    if env.cookiesFileExists then .cookies else .exit1

/-- `scrapeTailwindPlus` as seen by `main`: failure of the very first
root-page navigation (line 219) throws, is logged by the catch at line
263 and rethrown; otherwise the product loop runs to completion
(per-product failures are absorbed into the tree). -/
def scrapeOutcome (env : RunEnv) : Except String (List (String × CatNode)) :=
  if env.rootNavOk then .ok (scrapeTailwindPlus env.site)
  else .error "root navigation failed"

/-- `main` (`tailwindplus-download.js` lines 522-538) composed with the
top-level `main().catch(console.error)` (line 540): any rejection inside
`main` is caught and logged by that final catch, after which the Node.js
process exits normally with code 0; only the explicit `process.exit(1)`
calls produce a non-zero outcome.  `processAndSaveResults` (lines
474-488) exits with 1 when the scraped data is empty. -/
def runMain (env : RunEnv) : RunOutcome :=
  if env.helpFlag then .completed 0
  else
    match handleAuthentication env with
    | .exit1 => .exited 1
    | .rejected _ => .completed 0
    | .cookies =>
      match scrapeOutcome env with
      | .error _ => .completed 0
      | .ok data => if data.length = 0 then .exited 1 else .completed 0

/-- Concrete site used to exhibit the Group-level failure behaviour: one
product with one section holding a Group whose in-page extraction fails
(`G1`) and a healthy sibling (`G2`). -/
def siteC2ex : List (String × ProductSpec) :=
  [("P", ⟨"http://p", true, true,
    [("S", [("G1", ⟨"http://g1", true, [⟨"A", false, none⟩], true⟩),
            ("G2", ⟨"http://g2", true, [⟨"B", true, some "y"⟩], true⟩)])]⟩)]

/-- The character set translated to `_` by the `tr` stage of `safe_name`
in `tailwindplus-diff.sh` (line 328): space, slash, colon, star, question
mark, double quote, angle brackets, pipe, square brackets, dollar,
backtick (code 96), backslash, newline, tab and hash.  (In the script's
single-quoted argument, `tr` itself decodes the escapes to a backslash, a
newline and a tab.) -/
def unsafeChars : List Char :=
  [' ', '/', ':', '*', '?', Char.ofNat 34, '<', '>', '|', '[', ']', '$',
   Char.ofNat 96, Char.ofNat 92, Char.ofNat 10, Char.ofNat 9, '#']

/-- The first `tr` stage of `safe_name`: translate every unsafe character
to `_`. -/
def trUnsafe (cs : List Char) : List Char :=
  cs.map (fun c => if c ∈ unsafeChars then '_' else c)

/-- The `tr -s o_` stage of `safe_name` (here `o_` written out: squeeze
runs of `_` to a single occurrence). -/
def squeezeUnd : List Char → List Char
  | [] => []
  | [c] => [c]
  | a :: b :: rest =>
    if a = '_' ∧ b = '_' then squeezeUnd (b :: rest)
    else a :: squeezeUnd (b :: rest)

/-- The `sed` stage of `safe_name`: strip the leading run of dots and
underscores. -/
def trimLead : List Char → List Char
  | [] => []
  | c :: rest => if c = '.' ∨ c = '_' then trimLead rest else c :: rest

/-- `safe_name` of `tailwindplus-diff.sh` (lines 327-331): join the four
path components with `_`, translate every unsafe character to `_`,
squeeze runs of `_`, strip leading `.`/`_`, and keep the first 200
characters. -/
def safeName (cat sub grp comp : String) : String :=
  String.mk
    ((trimLead (squeezeUnd (trUnsafe
      (cat.data ++ '_' :: (sub.data ++ '_' :: (grp.data ++ '_' :: comp.data)))))).take
      200)

/-- The fallback test of lines 334-336 of the diff script: the sanitized
name is replaced by `component_<timestamp>_<pid>` when it is empty or
consists solely of dot, underscore and dash characters. -/
def isFallback (s : String) : Bool :=
  s.data.isEmpty || s.data.all (fun c => c == '.' || c == '_' || c == '-')

/-- No two adjacent underscores (the lists on which the squeeze stage is
the identity). -/
def NoDub : List Char → Prop
  | a :: b :: rest => ¬(a = '_' ∧ b = '_') ∧ NoDub (b :: rest)
  | _ => True

/-- A path component on which the sanitization pipeline is transparent:
nonempty, free of the unsafe characters and of underscores and dots. -/
def SafePathComponent (s : String) : Prop :=
  s.data ≠ [] ∧ ∀ c ∈ s.data, c ∉ unsafeChars ∧ c ≠ '_' ∧ c ≠ '.'

/-- A JSON value of the catalog files consumed by `tailwindplus-diff.sh`:
the downloader writes only nested objects and strings (no arrays or
numbers), so the model carries exactly those. -/
inductive Json : Type
  | str : String → Json
  | obj : List (String × Json) → Json

/-- One step of `jq` path indexing `.[$k]`: indexing `null` yields
`null`, indexing an object looks the key up (a missing key gives `null`),
and indexing a string is a `jq` runtime error (non-zero exit). -/
def jqIndex : Option Json → String → Except Unit (Option Json)
  | none, _ => .ok none
  | some (.obj kvs), k => .ok ((kvs.find? (fun q => q.1 == k)).map Prod.snd)
  | some (.str _), _ => .error ()

/-- Iterated `jq` indexing from a current value. -/
def jqPathFrom : Option Json → List String → Except Unit (Option Json)
  | v, [] => .ok v
  | v, k :: ks =>
    match jqIndex v k with
    | .error e => .error e
    | .ok v2 => jqPathFrom v2 ks

/-- `jq` extraction `.[$k1][$k2]…` from the document root, as in the
component-extraction commands of the diff script (lines 310 and 315). -/
def jqPath (root : Json) (ks : List String) : Except Unit (Option Json) :=
  jqPathFrom (some root) ks

/-- JSON string escaping for the model serializer: escape the double
quote (code 34) and the backslash (code 92). -/
def escapeChars (cs : List Char) : List Char :=
  cs.flatMap (fun c =>
    if c = Char.ofNat 34 ∨ c = Char.ofNat 92 then [Char.ofNat 92, c] else [c])

mutual
/-- Model serializer for non-string `jq -r` output.  `jq` pretty-prints
objects with newlines and indentation; none of the claims depends on the
exact whitespace, so the model renders objects compactly. -/
def encode : Json → String
  | .str s => String.mk (Char.ofNat 34 :: (escapeChars s.data ++ [Char.ofNat 34]))
  | .obj kvs => "\x7b" ++ String.intercalate "," (encodeKVs kvs) ++ "\x7d"

/-- Serialized `key: value` entries of an object. -/
def encodeKVs : List (String × Json) → List String
  | [] => []
  | (k, v) :: rest =>
    (String.mk (Char.ofNat 34 :: (escapeChars k.data ++ [Char.ofNat 34])) ++
      ":" ++ encode v) :: encodeKVs rest
end

/-- `jq -r` output text for an extracted value (every output additionally
ends in one newline, identical on both sides of the comparison): raw text
for strings, `null` for `null`, the serialized JSON for objects.  In
particular a component value of `null` (path absent) and the string
`"null"` render identically — exactly as `cmp` sees them. -/
def render : Option Json → String
  | none => "null"
  | some (.str s) => s
  | some (.obj kvs) => encode (.obj kvs)

/-- Duplicate-freedom of a key list, executable form. -/
def nodupStr : List String → Bool
  | [] => true
  | s :: rest => !(rest.contains s) && nodupStr rest

/-- `jq -r 'keys[]'` piped into `while read` at a path of the new file:
the object's keys in `jq`'s sorted order; a `jq` error (extraction
failing, or `keys` applied to a string or to `null`) fails the pipeline,
which `set -o errexit` turns into a script abort. -/
def jqKeysE (root : Json) (ks : List String) : Except Unit (List String) :=
  match jqPath root ks with
  | .error _ => .error ()
  | .ok none => .error ()
  | .ok (some (.str _)) => .error ()
  | .ok (some (.obj kvs)) =>
    .ok ((kvs.map Prod.fst).insertionSort (fun s t => strLe s t = true))

/-- One diff artifact written by the script: the component path and the
two rendered texts that `cmp` found different. -/
structure DiffRecord where
  path : List String
  oldText : String
  newText : String
deriving DecidableEq

/-- The artifact written for one component key of the new file, if any:
present exactly when both extractions succeed (the script `continue`s on
a failing extraction, lines 310-317) and the rendered outputs differ
(lines 321-347). -/
def recordFor (old new : Json) (c s g k : String) : Option DiffRecord :=
  match jqPath old [c, s, g, k], jqPath new [c, s, g, k] with
  | .ok o, .ok n =>
    if render o = render n then none
    else some ⟨[c, s, g, k], render o, render n⟩
  | _, _ => none

/-- Abort-aware sequencing of the script's nested `while` loops: records
written so far are kept, and a failing `keys[]` pipeline (`errexit`)
aborts everything after it. -/
def abortFold {α : Type} (f : α → List DiffRecord × Bool) (l : List α) :
    List DiffRecord × Bool :=
  l.foldl
    (fun acc x =>
      if acc.2 then acc else (acc.1 ++ (f x).1, (f x).2))
    ([], false)

/-- The component loop (lines 306-358) for one group of the new file. -/
def diffComponents (old new : Json) (c s g : String) : List DiffRecord × Bool :=
  match jqKeysE new [c, s, g] with
  | .error _ => ([], true)
  | .ok comps => (comps.filterMap (recordFor old new c s g), false)

/-- The group loop (lines 302-359) for one subcategory of the new file. -/
def diffGroups (old new : Json) (c s : String) : List DiffRecord × Bool :=
  match jqKeysE new [c, s] with
  | .error _ => ([], true)
  | .ok grps => abortFold (diffComponents old new c s) grps

/-- The subcategory loop (lines 298-360) for one category of the new
file. -/
def diffSubcats (old new : Json) (c : String) : List DiffRecord × Bool :=
  match jqKeysE new [c] with
  | .error _ => ([], true)
  | .ok secs => abortFold (diffGroups old new c) secs

/-- The category/subcategory/group/component loop of
`tailwindplus-diff.sh` (lines 294-361): iterate the NEW file's keys at
every level, extract both files' values at each component path, and write
one diff artifact whenever the rendered outputs differ.  The Boolean is
`true` when a failing `keys[]` pipeline aborted the script. -/
def diffScript (old new : Json) : List DiffRecord × Bool :=
  match jqKeysE new [] with
  | .error _ => ([], true)
  | .ok cats => abortFold (diffSubcats old new) cats

/-- Well-formedness of a group node for the diff loop: an object with
duplicate-free keys (component values arbitrary). -/
def wfGroup : Json → Bool
  | .str _ => false
  | .obj comps => nodupStr (comps.map Prod.fst)

/-- Well-formedness of a subcategory node: an object with duplicate-free
keys whose values are well-formed group nodes. -/
def wfSection : Json → Bool
  | .str _ => false
  | .obj grps => nodupStr (grps.map Prod.fst) && grps.all (fun gv => wfGroup gv.2)

/-- Well-formedness of a category node. -/
def wfCategory : Json → Bool
  | .str _ => false
  | .obj secs =>
    nodupStr (secs.map Prod.fst) && secs.all (fun sv => wfSection sv.2)

/-- Well-formedness of the new file for the diff loop: objects with
duplicate-free keys down to the group level, as the downloader's
JSON output guarantees. -/
def wfNew : Json → Bool
  | .str _ => false
  | .obj cats =>
    nodupStr (cats.map Prod.fst) && cats.all (fun cv => wfCategory cv.2)

/-- Old file of the concrete Removed-record scenario: a single leaf at
`A/S/G/X`. -/
def oldC1ex : Json :=
  .obj [("A", .obj [("S", .obj [("G", .obj [("X", .str "x")])])])]

/-- New file of the concrete Removed-record scenario: same skeleton, leaf
`X` removed. -/
def newC1ex : Json :=
  .obj [("A", .obj [("S", .obj [("G", .obj [])])])]

/- ====================================================================
   THEOREMS
   ==================================================================== -/

theorem lexLe_refl (a : List Char) : lexLe a a = true := by
  induction a with
  | nil => rfl
  | cons x xs ih => simp [lexLe, ih]

theorem lexLe_total (a b : List Char) : lexLe a b = true ∨ lexLe b a = true := by
  induction a generalizing b with
  | nil => left; rfl
  | cons x xs ih =>
    cases b with
    | nil => right; rfl
    | cons y ys =>
      rcases lt_trichotomy x y with h | h | h
      · left; simp [lexLe, h]
      · subst h
        rcases ih ys with h2 | h2
        · left; simp [lexLe, h2]
        · right; simp [lexLe, h2]
      · right; simp [lexLe, h]

theorem lexLe_trans {a b c : List Char} (hab : lexLe a b = true)
    (hbc : lexLe b c = true) : lexLe a c = true := by
  induction a generalizing b c with
  | nil => rfl
  | cons x xs ih =>
    cases b with
    | nil => simp [lexLe] at hab
    | cons y ys =>
      cases c with
      | nil => simp [lexLe] at hbc
      | cons z zs =>
        simp only [lexLe] at hab hbc ⊢
        by_cases hxy : x < y
        · by_cases hyz : y < z
          · simp [lt_trans hxy hyz]
          · by_cases hzy : z < y
            · simp [hyz, hzy] at hbc
            · have hzy2 : z = y := le_antisymm (not_lt.1 hyz) (not_lt.1 hzy)
              subst hzy2
              simp [hxy]
        · by_cases hyx : y < x
          · simp [hxy, hyx] at hab
          · have hxy2 : x = y := le_antisymm (not_lt.1 hyx) (not_lt.1 hxy)
            subst hxy2
            by_cases hxz : x < z
            · simp [hxz]
            · by_cases hzx : z < x
              · simp [hxz, hzx] at hbc
              · have hxz2 : x = z := le_antisymm (not_lt.1 hzx) (not_lt.1 hxz)
                subst hxz2
                simp only [lt_irrefl, if_false] at hab hbc ⊢
                exact ih hab hbc

theorem commonPre_isPre_left (a c : List Char) : IsPre (commonPre a c) a := by
  induction a generalizing c with
  | nil => exact ⟨[], by cases c <;> rfl⟩
  | cons x xs ih =>
    cases c with
    | nil => exact ⟨x :: xs, rfl⟩
    | cons y ys =>
      by_cases hxy : x = y
      · obtain ⟨t, ht⟩ := ih ys
        exact ⟨t, by simp [commonPre, hxy, ht]⟩
      · exact ⟨x :: xs, by simp [commonPre, hxy]⟩

/-- Sandwich property: the common run of two lexicographic bounds is an
initial segment of anything between them. -/
theorem commonPre_sandwich {a b c : List Char} (hab : lexLe a b = true)
    (hbc : lexLe b c = true) : IsPre (commonPre a c) b := by
  induction a generalizing b c with
  | nil => exact ⟨b, by cases c <;> rfl⟩
  | cons x xs ih =>
    cases c with
    | nil => exact ⟨b, rfl⟩
    | cons z zs =>
      by_cases hxz : x = z
      · subst hxz
        cases b with
        | nil => simp [lexLe] at hab
        | cons y ys =>
          simp only [lexLe] at hab hbc
          by_cases hxy : x < y
          · exfalso
            simp [lt_asymm hxy, hxy] at hbc
          · by_cases hyx : y < x
            · exfalso
              simp [hxy, hyx] at hab
            · have hxy2 : x = y := le_antisymm (not_lt.1 hyx) (not_lt.1 hxy)
              subst hxy2
              simp only [lt_irrefl, if_false] at hab hbc
              obtain ⟨t, ht⟩ := ih hab hbc
              exact ⟨t, by simp [commonPre, ht]⟩
      · exact ⟨b, by simp [commonPre, hxz]⟩

theorem isPre_commonPre {p a c : List Char} (ha : IsPre p a) (hc : IsPre p c) :
    IsPre p (commonPre a c) := by
  induction p generalizing a c with
  | nil => exact ⟨commonPre a c, rfl⟩
  | cons x ps ih =>
    obtain ⟨t, ht⟩ := ha
    obtain ⟨u, hu⟩ := hc
    subst ht; subst hu
    have h1 : IsPre ps (ps ++ t) := ⟨t, rfl⟩
    have h2 : IsPre ps (ps ++ u) := ⟨u, rfl⟩
    obtain ⟨v, hv⟩ := ih h1 h2
    refine ⟨v, ?_⟩
    simp only [List.cons_append, hv]
    simp [commonPre]

theorem isPre_trans {p q l : List Char} (hpq : IsPre p q) (hql : IsPre q l) :
    IsPre p l := by
  obtain ⟨t, ht⟩ := hpq
  obtain ⟨u, hu⟩ := hql
  exact ⟨t ++ u, by rw [← hu, ← ht, List.append_assoc]⟩

theorem cons_getLastD_mem {α : Type} (a : α) (l : List α) (d : α) :
    (a :: l).getLastD d ∈ a :: l := by
  induction l generalizing a with
  | nil => simp [List.getLastD]
  | cons b bs ih =>
    have : (a :: b :: bs).getLastD d = (b :: bs).getLastD d := by
      simp [List.getLastD]
    rw [this]
    exact List.mem_cons_of_mem a (ih b)

theorem sorted_head_le {x : String} {xs : List String}
    (h : List.Sorted (fun s t => strLe s t = true) (x :: xs)) :
    ∀ u ∈ x :: xs, strLe x u = true := by
  intro u hu
  cases hu with
  | head => exact lexLe_refl _
  | tail _ hmem => exact List.rel_of_sorted_cons h u hmem

theorem sorted_le_getLast {l : List String}
    (h : List.Sorted (fun s t => strLe s t = true) l) :
    ∀ u ∈ l, strLe u (l.getLastD "") = true := by
  induction l with
  | nil => intro u hu; cases hu
  | cons x xs ih =>
    intro u hu
    cases xs with
    | nil =>
      cases hu with
      | head => exact lexLe_refl _
      | tail _ hmem => cases hmem
    | cons y ys =>
      have htail : List.Sorted (fun s t => strLe s t = true) (y :: ys) :=
        h.of_cons
      have hlast : (x :: y :: ys).getLastD "" = (y :: ys).getLastD "" := by
        simp [List.getLastD]
      cases hu with
      | head =>
        rw [hlast]
        exact List.rel_of_sorted_cons h _ (cons_getLastD_mem y ys "")
      | tail _ hmem =>
        rw [hlast]
        exact ih htail u hmem

/-- **C3.** `UrlPrefixResolver` correctness for `findUrlBasePath`
(`tailwindplus-download.js` lines 328-344): the returned string is the
longest common character run of all inputs — it is an initial segment of
every input, and every common initial segment of all inputs is an initial
segment of it; a singleton input is returned unchanged; the empty input
yields `""`; and when at least two inputs share no common first character
the result is `""`. -/
theorem findUrlBasePath_spec (urls : List String) :
    (∀ u ∈ urls, IsPre (findUrlBasePath urls).data u.data) ∧
    (urls ≠ [] → ∀ p : List Char, (∀ u ∈ urls, IsPre p u.data) →
      IsPre p (findUrlBasePath urls).data) ∧
    (∀ u, urls = [u] → findUrlBasePath urls = u) ∧
    (urls = [] → findUrlBasePath urls = "") ∧
    (2 ≤ urls.length → (¬ ∃ c, ∀ u ∈ urls, ∃ t, u.data = c :: t) →
      findUrlBasePath urls = "") := by
  classical
  match urls with
  | [] =>
    refine ⟨(by intro u hu; cases hu), (by intro h; exact absurd rfl h),
      (by intro u h; cases h), fun _ => rfl, (by intro h; simp at h)⟩
  | [u] =>
    refine ⟨?_, ?_, ?_, (by intro h; cases h), (by intro h; simp at h)⟩
    · intro v hv
      cases hv with
      | head => exact ⟨[], by simp [findUrlBasePath]⟩
      | tail _ hmem => cases hmem
    · intro _ p hp
      exact hp u (by simp)
    · intro v hv
      have h1 : u = v := by simpa using hv
      subst h1
      rfl
  | u1 :: u2 :: rest =>
    have hsorted : List.Sorted (fun s t : String => strLe s t = true)
        ((u1 :: u2 :: rest).insertionSort (fun s t => strLe s t = true)) := by
      haveI : IsTotal String (fun s t => strLe s t = true) :=
        ⟨fun a b => lexLe_total a.data b.data⟩
      haveI : IsTrans String (fun s t => strLe s t = true) :=
        ⟨fun _ _ _ hab hbc => lexLe_trans hab hbc⟩
      exact List.sorted_insertionSort _ _
    have hperm := List.perm_insertionSort
      (fun s t : String => strLe s t = true) (u1 :: u2 :: rest)
    set sorted := (u1 :: u2 :: rest).insertionSort (fun s t => strLe s t = true)
      with hsorted_def
    have hne : sorted ≠ [] := by
      intro h
      have := hperm.length_eq
      rw [h] at this
      simp at this
    have hresult : findUrlBasePath (u1 :: u2 :: rest) =
        ⟨commonPre (sorted.headD "").data (sorted.getLastD "").data⟩ := rfl
    have hhead_mem : sorted.headD "" ∈ sorted := by
      cases h : sorted with
      | nil => exact absurd h hne
      | cons a l => simp [h]
    have hlast_mem : sorted.getLastD "" ∈ sorted := by
      cases h : sorted with
      | nil => exact absurd h hne
      | cons a l => exact cons_getLastD_mem a l ""
    have hpre : ∀ u ∈ u1 :: u2 :: rest,
        IsPre (findUrlBasePath (u1 :: u2 :: rest)).data u.data := by
      intro u hu
      have humem : u ∈ sorted := hperm.mem_iff.2 hu
      have hle1 : strLe (sorted.headD "") u = true := by
        cases h : sorted with
        | nil => exact absurd h hne
        | cons a l =>
          exact sorted_head_le (h ▸ hsorted) u (h ▸ humem)
      have hle2 : strLe u (sorted.getLastD "") = true :=
        sorted_le_getLast hsorted u humem
      have := commonPre_sandwich hle1 hle2
      rw [hresult]
      exact this
    refine ⟨hpre, ?_, (by intro u h; cases h), (by intro h; cases h), ?_⟩
    · intro _ p hp
      have hp1 : IsPre p (sorted.headD "").data :=
        hp _ (hperm.mem_iff.1 hhead_mem)
      have hp2 : IsPre p (sorted.getLastD "").data :=
        hp _ (hperm.mem_iff.1 hlast_mem)
      rw [hresult]
      exact isPre_commonPre hp1 hp2
    · intro _ hnoc
      cases hF : (findUrlBasePath (u1 :: u2 :: rest)).data with
      | nil =>
        cases hS : findUrlBasePath (u1 :: u2 :: rest) with
        | mk d =>
          rw [hS] at hF
          have hd : d = [] := hF
          subst hd
          decide
      | cons c cs =>
        exfalso
        apply hnoc
        refine ⟨c, fun u hu => ?_⟩
        obtain ⟨t, ht⟩ := hpre u hu
        rw [hF] at ht
        exact ⟨cs ++ t, by rw [← ht]; rfl⟩

/-- Witness for C3 at concrete inputs, discharging the hypotheses. -/
theorem findUrlBasePath_spec_witness :
    findUrlBasePath ["only"] = "only" ∧
    IsPre "ab".data (findUrlBasePath ["abc", "abd"]).data := by
  constructor
  · exact (findUrlBasePath_spec ["only"]).2.2.1 "only" rfl
  · refine (findUrlBasePath_spec ["abc", "abd"]).2.1 (by decide) "ab".data ?_
    intro u hu
    simp only [List.mem_cons, List.not_mem_nil, or_false] at hu
    rcases hu with h | h
    · subst h; exact ⟨['c'], by decide⟩
    · subst h; exact ⟨['d'], by decide⟩

theorem getD_append_self (h : List (List String)) (x : List String) :
    (h ++ [x]).getD h.length [] = x := by
  induction h with
  | nil => rfl
  | cons a l ih => simpa using ih

theorem getD_append_lt (h : List (List String)) (x : List String) {i : Nat}
    (hi : i < h.length) : (h ++ [x]).getD i [] = h.getD i [] := by
  induction h generalizing i with
  | nil => simp at hi
  | cons a l ih =>
    cases i with
    | zero => rfl
    | succ j => exact ih (by simpa using hi)

theorem getD_set_ne (h : List (List String)) (v : List String) {i j : Nat}
    (hij : i ≠ j) : (h.set i v).getD j [] = h.getD j [] := by
  induction h generalizing i j with
  | nil => simp [List.set]
  | cons a l ih =>
    cases i with
    | zero =>
      cases j with
      | zero => exact absurd rfl hij
      | succ k => rfl
    | succ m =>
      cases j with
      | zero => rfl
      | succ k => exact ih (by omega)

theorem getD_set_self (h : List (List String)) (v : List String) {i : Nat}
    (hi : i < h.length) : (h.set i v).getD i [] = v := by
  induction h generalizing i with
  | nil => simp at hi
  | cons a l ih =>
    cases i with
    | zero => rfl
    | succ m => exact ih (by simpa using hi)

/-- **C10.** `findUrlBasePath` never mutates its argument: in the
heap-passing embedding, after the call the caller's array cell still holds
exactly its original elements in their original order (the source sorts a
fresh copy, `[...urls].sort()`, never the argument), and the returned
string agrees with the pure function. -/
theorem findUrlBasePathHeap_frame (h : List (List String)) (ref : Nat)
    (href : ref < h.length) :
    (findUrlBasePathHeap h ref).2.getD ref [] = h.getD ref [] ∧
    (findUrlBasePathHeap h ref).1 = findUrlBasePath (h.getD ref []) := by
  cases hurls : h.getD ref [] with
  | nil =>
    have hfun : findUrlBasePathHeap h ref = ("", h) := by
      unfold findUrlBasePathHeap
      rw [hurls]
      simp
    rw [hfun, hurls]
    exact ⟨rfl, rfl⟩
  | cons u us =>
    cases us with
    | nil =>
      have hfun : findUrlBasePathHeap h ref = (u, h) := by
        unfold findUrlBasePathHeap
        rw [hurls]
        simp
      rw [hfun, hurls]
      exact ⟨rfl, rfl⟩
    | cons u2 rest =>
      have hcell : (sortInPlace (h ++ [u :: u2 :: rest]) h.length).getD ref [] =
          u :: u2 :: rest := by
        unfold sortInPlace
        rw [getD_set_ne _ _ (by omega), getD_append_lt h _ href, hurls]
      have hsorted_cell :
          (sortInPlace (h ++ [u :: u2 :: rest]) h.length).getD h.length [] =
          (u :: u2 :: rest).insertionSort (fun s t => strLe s t = true) := by
        unfold sortInPlace
        rw [getD_append_self]
        exact getD_set_self _ _ (by simp)
      simp only [findUrlBasePathHeap, hurls, List.length_cons]
      rw [if_neg (by omega), if_neg (by omega)]
      refine ⟨hcell, ?_⟩
      rw [hsorted_cell]
      rfl

/-- Witness for C10 at a concrete heap. -/
theorem findUrlBasePathHeap_frame_witness :
    (findUrlBasePathHeap [["b", "a"]] 0).2.getD 0 [] = ["b", "a"] ∧
    (findUrlBasePathHeap [["b", "a"]] 0).1 = findUrlBasePath ["b", "a"] := by
  have := findUrlBasePathHeap_frame [["b", "a"]] 0 (by decide)
  simpa using this

theorem foldEnumFrom_eq (arr : List String) (m : Nat) :
    ∀ (l : List String) (n : Nat) (obj : List (String × String)),
      l.length ≤ m → arr.drop n = l → n % 2 = 0 →
      (List.enumFrom n l).foldl
        (fun obj p =>
          if p.1 % 2 = 1 then objInsert obj p.2 (arr.getD (p.1 - 1) "") else obj)
        obj = insertAll obj (pairsOf l) := by
  induction m with
  | zero =>
    intro l n obj hlen hdrop hpar
    have hnil : l = [] := List.length_eq_zero.mp (Nat.le_zero.mp hlen)
    subst hnil
    rfl
  | succ m ih =>
    intro l n obj hlen hdrop hpar
    match l with
    | [] => rfl
    | [v] =>
      have hc : ¬(n % 2 = 1) := by omega
      simp only [List.enumFrom, List.foldl, pairsOf, insertAll]
      rw [if_neg hc]
    | v :: k :: rest =>
      have h1 : arr[n]? = some v := by
        have h2 := List.getElem?_drop arr n 0
        rw [hdrop] at h2
        simpa using h2.symm
      have hget : arr.getD n "" = v := by
        rw [List.getD_eq_getElem?_getD, h1]
        rfl
      have henum : List.enumFrom n (v :: k :: rest) =
          (n, v) :: (n + 1, k) :: List.enumFrom (n + 2) rest := by
        simp [List.enumFrom]
      rw [henum]
      have hc1 : ¬(n % 2 = 1) := by omega
      have hc2 : (n + 1) % 2 = 1 := by omega
      simp only [List.foldl]
      rw [if_neg hc1, if_pos hc2]
      have hrest : arr.drop (n + 2) = rest := by
        have h3 := List.drop_drop 2 n arr
        rw [hdrop] at h3
        simpa using h3.symm
      have hlen2 : rest.length ≤ m := by
        simp only [List.length_cons] at hlen
        omega
      have hres := ih rest (n + 2) (objInsert obj k (arr.getD (n + 1 - 1) ""))
        hlen2 hrest (by omega)
      rw [hres]
      have hidx : n + 1 - 1 = n := rfl
      rw [hidx, hget]
      rfl

theorem productSection_eq_pairs (elems : List SectionElem) :
    productSectionToNamesAndPageUrls elems =
      insertAll [] (pairsOf (elems.map elemValue)) := by
  have h := foldEnumFrom_eq (elems.map elemValue) (elems.map elemValue).length
    (elems.map elemValue) 0 [] (le_refl _) (by simp) (by omega)
  simpa [productSectionToNamesAndPageUrls, List.enum] using h

theorem insertAll_of_fresh (l : List (String × String)) :
    ∀ obj, (∀ kv ∈ l, ∀ p ∈ obj, p.1 ≠ kv.1) → (l.map Prod.fst).Nodup →
      insertAll obj l = obj ++ l := by
  induction l with
  | nil => intro obj _ _; simp [insertAll]
  | cons kv tl ih =>
    intro obj hfresh hnodup
    have hany : obj.any (fun p => p.1 == kv.1) = false := by
      rw [List.any_eq_false]
      intro p hp
      simp only [beq_iff_eq]
      exact hfresh kv (List.mem_cons_self kv tl) p hp
    have hins : objInsert obj kv.1 kv.2 = obj ++ [kv] := by
      unfold objInsert
      rw [hany]
      simp
    have hstep : insertAll obj (kv :: tl) = insertAll (obj ++ [kv]) tl := by
      simp [insertAll, List.foldl, hins]
    rw [hstep]
    have hnodup2 : (tl.map Prod.fst).Nodup := by
      simp only [List.map_cons, List.nodup_cons] at hnodup
      exact hnodup.2
    have hnotin : kv.1 ∉ tl.map Prod.fst := by
      simp only [List.map_cons, List.nodup_cons] at hnodup
      exact hnodup.1
    have hfresh2 : ∀ kv2 ∈ tl, ∀ p ∈ obj ++ [kv], p.1 ≠ kv2.1 := by
      intro kv2 hkv2 p hp
      rcases List.mem_append.mp hp with hpo | hpk
      · exact hfresh kv2 (List.mem_cons_of_mem kv hkv2) p hpo
      · have hpkv : p = kv := by simpa using hpk
        subst hpkv
        intro hcontra
        exact hnotin (hcontra ▸ List.mem_map_of_mem Prod.fst hkv2)
    rw [ih (obj ++ [kv]) hfresh2 hnodup2]
    simp

theorem pairsOf_mkLinkLabelRun (ps : List (String × String)) :
    pairsOf ((mkLinkLabelRun ps).map elemValue) = ps := by
  induction ps with
  | nil => rfl
  | cons p tl ih =>
    have hstep : (mkLinkLabelRun (p :: tl)).map elemValue =
        p.2 :: p.1 :: (mkLinkLabelRun tl).map elemValue := by
      simp [mkLinkLabelRun, elemValue]
    rw [hstep]
    simp only [pairsOf, ih]

/-- **C8 counterexample.** For the ordered run
`[para "Hero Sections", anchor "http://hero"]` — a label preceding its
link, exactly the claim's premise — `productSectionToNamesAndPageUrls`
produces the entry keyed by the URL with the label as its value; no entry
is keyed by the label, contradicting the claim that each label becomes
the key and the following link the value. -/
theorem productSection_zip_counterexample :
    productSectionToNamesAndPageUrls
        [.para "Hero Sections", .anchor "http://hero"] =
      [("http://hero", "Hero Sections")] ∧
    ∀ v, ("Hero Sections", v) ∉
      productSectionToNamesAndPageUrls
        [.para "Hero Sections", .anchor "http://hero"] := by
  refine ⟨rfl, ?_⟩
  intro v hv
  have h1 : productSectionToNamesAndPageUrls
      [SectionElem.para "Hero Sections", SectionElem.anchor "http://hero"] =
      [("http://hero", "Hero Sections")] := rfl
  rw [h1] at hv
  have heq := List.mem_singleton.mp hv
  have hfst : "Hero Sections" = "http://hero" := congrArg Prod.fst heq
  exact absurd hfst (by decide)

/-- **C8 (amended).** The level-2 reduce keys each entry by the element at
the odd offset and takes the element immediately PRECEDING it as the
value: an alternating run in which each link precedes its label (the
document order the site produces, the label paragraph being a descendant
of its anchor) yields exactly the intended label→URL mapping. -/
theorem productSection_zip_amended (ps : List (String × String))
    (hnodup : (ps.map Prod.fst).Nodup) :
    productSectionToNamesAndPageUrls (mkLinkLabelRun ps) = ps := by
  rw [productSection_eq_pairs, pairsOf_mkLinkLabelRun]
  have h := insertAll_of_fresh ps [] (by intro kv _ p hp; cases hp) hnodup
  simpa using h

/-- Witness for the amended C8 at a concrete two-pair run. -/
theorem productSection_zip_amended_witness :
    productSectionToNamesAndPageUrls
        [.anchor "http://hero", .para "Hero Sections",
         .anchor "http://feature", .para "Feature Sections"] =
      [("Hero Sections", "http://hero"),
       ("Feature Sections", "http://feature")] := by
  have h := productSection_zip_amended
    [("Hero Sections", "http://hero"), ("Feature Sections", "http://feature")]
    (by decide)
  simpa [mkLinkLabelRun] using h

theorem pageEvaluate_error_of_failing :
    ∀ (blocks : List ComponentBlock) (acc : List (String × String))
      (b : ComponentBlock), b ∈ blocks →
      (b.revealOk = false ∨ b.code = none) →
      ∃ e, pageEvaluate acc blocks = .error e := by
  intro blocks
  induction blocks with
  | nil => intro acc b hb; cases hb
  | cons b0 tl ih =>
    intro acc b hb hfail
    cases hb with
    | head =>
      rcases hfail with h | h
      · exact ⟨"reveal failed",
          by simp [pageEvaluate, componentSectionToNameAndData, h]⟩
      · by_cases hr : b0.revealOk
        · exact ⟨"code read failed",
            by simp [pageEvaluate, componentSectionToNameAndData, hr, h]⟩
        · exact ⟨"reveal failed",
            by simp [pageEvaluate, componentSectionToNameAndData, hr]⟩
    | tail _ hmem =>
      cases hcall : componentSectionToNameAndData b0 with
      | error e => exact ⟨e, by simp [pageEvaluate, hcall]⟩
      | ok kv =>
        obtain ⟨e, he⟩ := ih (objInsert acc kv.1 kv.2) b hmem hfail
        exact ⟨e, by simp [pageEvaluate, hcall, he]⟩

theorem pageEvaluate_ok_of_all :
    ∀ (blocks : List ComponentBlock) (acc : List (String × String)),
      (∀ b ∈ blocks, b.revealOk = true ∧ b.code ≠ none) →
      pageEvaluate acc blocks =
        .ok (insertAll acc (blocks.map (fun b => (b.name, b.code.getD "")))) := by
  intro blocks
  induction blocks with
  | nil => intro acc _; rfl
  | cons b0 tl ih =>
    intro acc hall
    obtain ⟨hr, hc⟩ := hall b0 (List.mem_cons_self b0 tl)
    cases hcode : b0.code with
    | none => exact absurd hcode hc
    | some c =>
      have hcall : componentSectionToNameAndData b0 = .ok (b0.name, c) := by
        simp [componentSectionToNameAndData, hr, hcode]
      have hrec := ih (objInsert acc b0.name c)
        (fun b hb => hall b (List.mem_cons_of_mem b0 hb))
      simp [pageEvaluate, hcall, hrec, insertAll, hcode]

/-- **C5 counterexample.** On a page with two component blocks where only
the second fails its reveal, extraction returns the empty mapping: the
successful sibling's entry is NOT retained, contradicting the claimed
partial-mapping result. -/
theorem getComponentsAndData_partial_counterexample :
    componentSectionToNameAndData ⟨"A", true, some "x"⟩ = .ok ("A", "x") ∧
    getComponentsAndData [⟨"A", true, some "x"⟩, ⟨"B", false, none⟩] = [] ∧
    ("A", "x") ∉
      getComponentsAndData [⟨"A", true, some "x"⟩, ⟨"B", false, none⟩] := by
  refine ⟨rfl, rfl, ?_⟩
  intro h
  have h0 : getComponentsAndData
      [(⟨"A", true, some "x"⟩ : ComponentBlock), ⟨"B", false, none⟩] = [] := rfl
  rw [h0] at h
  cases h

/-- **C5 (amended).** Failure handling inside one components page is
page-granular: if the reveal action or code read fails for any one block,
the whole in-page reduce chain rejects and `getComponentsAndData`
returns the empty mapping (no partial mapping with the surviving
siblings); when every block succeeds, the full mapping is returned. -/
theorem getComponentsAndData_page_granularity (blocks : List ComponentBlock) :
    ((∃ b ∈ blocks, b.revealOk = false ∨ b.code = none) →
      getComponentsAndData blocks = []) ∧
    ((∀ b ∈ blocks, b.revealOk = true ∧ b.code ≠ none) →
      getComponentsAndData blocks =
        insertAll [] (blocks.map (fun b => (b.name, b.code.getD "")))) := by
  constructor
  · rintro ⟨b, hb, hfail⟩
    obtain ⟨e, he⟩ := pageEvaluate_error_of_failing blocks [] b hb hfail
    simp [getComponentsAndData, he]
  · intro hall
    simp [getComponentsAndData, pageEvaluate_ok_of_all blocks [] hall]

/-- Witness for the amended C5 at concrete pages. -/
theorem getComponentsAndData_page_granularity_witness :
    getComponentsAndData [⟨"A", true, some "x"⟩, ⟨"B", false, none⟩] = [] ∧
    getComponentsAndData [⟨"A", true, some "x"⟩] = [("A", "x")] := by
  constructor
  · exact (getComponentsAndData_page_granularity _).1
      ⟨⟨"B", false, none⟩, by simp, Or.inl rfl⟩
  · have h := (getComponentsAndData_page_granularity
      [⟨"A", true, some "x"⟩]).2 (by
        intro b hb
        have hb2 : b = ⟨"A", true, some "x"⟩ := by simpa using hb
        subst hb2
        exact ⟨rfl, by simp⟩)
    simpa [insertAll, objInsert] using h

theorem foldl_map_comm {α β : Type} (F : β → α → α) :
    ∀ (l : List β) (S : List α),
      l.foldl (fun S w => S.map (F w)) S =
        S.map (fun e => l.foldl (fun e w => F w e) e) := by
  intro l
  induction l with
  | nil => intro S; simp
  | cons w ws ih =>
    intro S
    simp only [List.foldl]
    rw [ih (S.map (F w)), List.map_map]
    rfl

theorem foldl_if_false {γ δ : Type} (sn : String) (U : δ → List γ → List γ) :
    ∀ (ws : List δ) (e : String × List γ), (e.1 == sn) = false →
      ws.foldl (fun e w => if e.1 == sn then (e.1, U w e.2) else e) e = e := by
  intro ws
  induction ws with
  | nil => intro e _; rfl
  | cons w ws ih =>
    intro e he
    rw [List.foldl_cons, if_neg (by simp [he])]
    exact ih e he

theorem foldl_if_true {γ δ : Type} (sn : String) (U : δ → List γ → List γ) :
    ∀ (ws : List δ) (e : String × List γ), (e.1 == sn) = true →
      ws.foldl (fun e w => if e.1 == sn then (e.1, U w e.2) else e) e =
        (e.1, ws.foldl (fun m w => U w m) e.2) := by
  intro ws
  induction ws with
  | nil => intro e _; rfl
  | cons w ws ih =>
    intro e he
    rw [List.foldl_cons, if_pos he, ih (e.1, U w e.2) he]
    rfl

theorem foldl_keyed_skip {β γ : Type} (name : β → String) (T : β → γ → γ) :
    ∀ (l : List β) (q : String × γ), (∀ b ∈ l, (q.1 == name b) = false) →
      l.foldl (fun q b => if q.1 == name b then (q.1, T b q.2) else q) q = q := by
  intro l
  induction l with
  | nil => intro q _; rfl
  | cons b bs ih =>
    intro q h
    rw [List.foldl_cons, if_neg (by simp [h b (List.mem_cons_self b bs)])]
    exact ih q (fun b2 hb2 => h b2 (List.mem_cons_of_mem b hb2))

theorem foldl_keyed_unique {β γ : Type} (name : β → String) (T : β → γ → γ) :
    ∀ (l : List β) (b0 : β) (q : String × γ), b0 ∈ l → (l.map name).Nodup →
      q.1 = name b0 →
      l.foldl (fun q b => if q.1 == name b then (q.1, T b q.2) else q) q =
        (q.1, T b0 q.2) := by
  intro l
  induction l with
  | nil => intro b0 q h; cases h
  | cons b bs ih =>
    intro b0 q hmem hnodup hq
    cases hmem with
    | head =>
      rw [List.foldl_cons, if_pos (by simp [hq])]
      have h1 : name b ∉ bs.map name := by
        simp only [List.map_cons, List.nodup_cons] at hnodup
        exact hnodup.1
      have hskip : ∀ b2 ∈ bs,
          (((q.1 : String), T b q.2).1 == name b2) = false := by
        intro b2 hb2
        have h2 : name b ≠ name b2 := by
          intro hc
          exact h1 (hc ▸ List.mem_map_of_mem name hb2)
        simp [hq, h2]
      exact foldl_keyed_skip name T bs _ hskip
    | tail _ hmem2 =>
      have h1 : name b ∉ bs.map name := by
        simp only [List.map_cons, List.nodup_cons] at hnodup
        exact hnodup.1
      have hne : (q.1 == name b) = false := by
        have h3 : q.1 ≠ name b := by
          rw [hq]
          intro hc
          exact h1 (hc ▸ List.mem_map_of_mem name hmem2)
        simp [h3]
      rw [List.foldl_cons, if_neg (by simp [hne])]
      refine ih b0 q hmem2 ?_ hq
      simp only [List.map_cons, List.nodup_cons] at hnodup
      exact hnodup.2

theorem cons_getLast?_getD {α : Type} (a : α) (l : List α) (d1 d2 : α) :
    (a :: l).getLast?.getD d1 = (a :: l).getLast?.getD d2 := by
  induction l generalizing a with
  | nil => simp
  | cons b bs ih =>
    rw [List.getLast?_cons_cons]
    exact ih b

theorem groupStep_eq (gn : String) (ws : List GroupNode) :
    ∀ q : String × GroupNode,
      ws.foldl (fun q w => if q.1 == gn then (q.1, w) else q) q =
        if q.1 == gn then (q.1, ws.getLastD q.2) else q := by
  induction ws with
  | nil =>
    intro q
    cases h : q.1 == gn <;> simp [h, List.getLastD]
  | cons w ws ih =>
    intro q
    rw [List.foldl_cons]
    cases h : q.1 == gn with
    | true =>
      have hred : (if true = true then ((q.1 : String), w) else q) = (q.1, w) :=
        if_pos rfl
      rw [hred, ih (q.1, w)]
      have h2 : ((((q.1 : String), w)).1 == gn) = true := h
      rw [if_pos h2, if_pos rfl]
      cases ws with
      | nil => simp [List.getLastD]
      | cons a as =>
        simp only [List.getLastD_eq_getLast?, List.getLast?_cons_cons]
        exact congrArg (fun x => ((q.1 : String), x)) (cons_getLast?_getD a as w q.2)
    | false =>
      have hred : (if false = true then ((q.1 : String), w) else q) = q :=
        if_neg (by simp)
      rw [hred, ih q]
      simp [h]

theorem sectionStep_eq (sn : String) (groups : List (String × GroupSpec)) :
    ∀ e : String × List (String × GroupNode),
      groups.foldl (fun e g =>
          (groupWrites g.2).foldl
            (fun e w => if e.1 == sn then
              (e.1, e.2.map (fun q => if q.1 == g.1 then (q.1, w) else q))
            else e) e) e =
        if e.1 == sn then
          (e.1, groups.foldl (fun m g =>
            (groupWrites g.2).foldl
              (fun m w => m.map (fun q => if q.1 == g.1 then (q.1, w) else q)) m)
            e.2)
        else e := by
  induction groups with
  | nil =>
    intro e
    cases h : e.1 == sn <;> simp [h]
  | cons g gs ih =>
    intro e
    rw [List.foldl_cons]
    cases h : e.1 == sn with
    | true =>
      rw [foldl_if_true sn
          (fun w m => m.map (fun q => if q.1 == g.1 then (q.1, w) else q))
          (groupWrites g.2) e h,
        ih _]
      simp [h, List.foldl_cons]
    | false =>
      rw [foldl_if_false sn
          (fun w m => m.map (fun q => if q.1 == g.1 then (q.1, w) else q))
          (groupWrites g.2) e h,
        ih e]
      simp [h]

theorem runSections_eq (secs : List (String × List (String × GroupSpec)))
    (hsec : (secs.map Prod.fst).Nodup)
    (hgrp : ∀ s ∈ secs, (s.2.map Prod.fst).Nodup) :
    runSections secs =
      secs.map (fun s => (s.1, s.2.map (fun g => (g.1, runGroup g.2)))) := by
  unfold runSections
  simp only [setGroup, foldl_map_comm, initialSections, List.map_map]
  apply List.map_congr_left
  intro s0 hs0
  simp only [Function.comp_apply, sectionStep_eq]
  rw [foldl_keyed_unique (Prod.fst : String × List (String × GroupSpec) → String)
      (fun (s : String × List (String × GroupSpec))
           (m : List (String × GroupNode)) =>
        s.2.foldl (fun m g =>
          (groupWrites g.2).foldl
            (fun m w => m.map (fun q => if q.1 == g.1 then (q.1, w) else q)) m) m)
      secs s0 _ hs0 hsec rfl]
  refine congrArg (fun m => ((s0.1 : String), m)) ?_
  simp only [foldl_map_comm, List.map_map, groupStep_eq]
  apply List.map_congr_left
  intro g0 hg0
  simp only [Function.comp_apply]
  rw [foldl_keyed_unique (Prod.fst : String × GroupSpec → String)
      (fun (g : String × GroupSpec) (v : GroupNode) => (groupWrites g.2).getLastD v)
      s0.2 g0 _ hg0 (hgrp s0 hs0) rfl]
  rfl

theorem scrape_pointwise (site : List (String × ProductSpec))
    (hnodup : (site.map Prod.fst).Nodup) :
    scrapeTailwindPlus site = site.map (fun p => (p.1, runProduct p.2)) := by
  unfold scrapeTailwindPlus
  simp only [foldl_map_comm, List.map_map]
  apply List.map_congr_left
  intro p0 hp0
  simp only [Function.comp_apply]
  rw [foldl_keyed_unique (Prod.fst : String × ProductSpec → String)
      (fun (p : String × ProductSpec) (_ : CatNode) => runProduct p.2)
      site p0 _ hp0 hnodup rfl]

theorem find?_map_keyed {β γ : Type} (f : String × β → γ) (k : String) :
    ∀ l : List (String × β),
      (l.map (fun x => (x.1, f x))).find? (fun q => q.1 == k) =
        (l.find? (fun x => x.1 == k)).map (fun x => (x.1, f x)) := by
  intro l
  induction l with
  | nil => rfl
  | cons x xs ih =>
    simp only [List.map_cons]
    cases h : x.1 == k with
    | true => simp [List.find?, h]
    | false => simp [List.find?, h, ih]

theorem find?_map_keypres {β : Type} (u : String × β → String × β)
    (hkey : ∀ x, (u x).1 = x.1) (k : String) :
    ∀ l : List (String × β),
      (l.map u).find? (fun q => q.1 == k) =
        (l.find? (fun q => q.1 == k)).map u := by
  intro l
  induction l with
  | nil => rfl
  | cons x xs ih =>
    simp only [List.map_cons]
    cases h : x.1 == k with
    | true => simp [List.find?, hkey x, h]
    | false => simp [List.find?, hkey x, h, ih]

theorem treeValue_eq_spec (site : List (String × ProductSpec))
    (h : SiteKeysNodup site) (pn sn gn : String) :
    treeValue (scrapeTailwindPlus site) pn sn gn = treeValueSpec site pn sn gn := by
  rw [scrape_pointwise site h.1]
  unfold treeValue treeValueSpec lookupKey
  rw [find?_map_keyed (fun x => runProduct x.2) pn site]
  cases hfind : site.find? (fun q => q.1 == pn) with
  | none => rfl
  | some q =>
    have hqmem : q ∈ site := List.mem_of_find?_eq_some hfind
    simp only [Option.map_some', Option.some_bind]
    cases hnav : q.2.navOk with
    | false => simp [runProduct, hnav, catSections]
    | true =>
      cases hsec : q.2.sectionsOk with
      | false => simp [runProduct, hnav, hsec, catSections]
      | true =>
        have hrp : runProduct q.2 = CatNode.sections (runSections q.2.sections) := by
          simp [runProduct, hnav, hsec]
        rw [hrp, runSections_eq q.2.sections ((h.2 q hqmem).1) ((h.2 q hqmem).2)]
        simp only [catSections, Option.some_bind]
        rw [if_pos (show (true && true) = true from rfl)]
        rw [find?_map_keyed
          (fun s => s.2.map (fun g => (g.1, runGroup g.2))) sn q.2.sections]
        cases hf2 : q.2.sections.find? (fun s => s.1 == sn) with
        | none => rfl
        | some s =>
          simp only [Option.map_some', Option.some_bind]
          rw [find?_map_keyed (fun g => runGroup g.2) gn s.2]
          cases hf3 : s.2.find? (fun q2 => q2.1 == gn) with
          | none => rfl
          | some g => rfl

theorem updateGroupSpec_nodup (site : List (String × ProductSpec))
    (pn sn gn : String) (g2 : GroupSpec) (h : SiteKeysNodup site) :
    SiteKeysNodup (updateGroupSpec site pn sn gn g2) := by
  obtain ⟨h1, h2⟩ := h
  constructor
  · have hkeys : (updateGroupSpec site pn sn gn g2).map Prod.fst =
        site.map Prod.fst := by
      unfold updateGroupSpec
      rw [List.map_map]
      apply List.map_congr_left
      intro q _
      simp only [Function.comp_apply]
      split <;> rfl
    rw [hkeys]
    exact h1
  · intro q2 hq2
    unfold updateGroupSpec at hq2
    obtain ⟨q, hq, hq2eq⟩ := List.mem_map.mp hq2
    subst hq2eq
    by_cases hc : (q.1 == pn) = true
    · rw [if_pos hc]
      constructor
      · have hkeys : (q.2.sections.map (fun s =>
            if s.1 == sn then
              (s.1, s.2.map (fun q2 => if q2.1 == gn then (q2.1, g2) else q2))
            else s)).map Prod.fst = q.2.sections.map Prod.fst := by
          rw [List.map_map]
          apply List.map_congr_left
          intro s _
          simp only [Function.comp_apply]
          split <;> rfl
        simp only [hkeys]
        exact (h2 q hq).1
      · intro s hs
        obtain ⟨s0, hs0, hseq⟩ := List.mem_map.mp hs
        by_cases hcs : (s0.1 == sn) = true
        · rw [if_pos hcs] at hseq
          subst hseq
          have hkeys : (s0.2.map (fun q2 =>
              if q2.1 == gn then (q2.1, g2) else q2)).map Prod.fst =
              s0.2.map Prod.fst := by
            rw [List.map_map]
            apply List.map_congr_left
            intro g0 _
            simp only [Function.comp_apply]
            split <;> rfl
          simp only [hkeys]
          exact (h2 q hq).2 s0 hs0
        · rw [if_neg hcs] at hseq
          subst hseq
          exact (h2 q hq).2 s0 hs0
    · rw [if_neg hc]
      exact h2 q hq

theorem treeValueSpec_update_other (site : List (String × ProductSpec))
    (pn sn gn : String) (g2 : GroupSpec) (pn2 sn2 gn2 : String)
    (hne : pn2 ≠ pn ∨ sn2 ≠ sn ∨ gn2 ≠ gn) :
    treeValueSpec (updateGroupSpec site pn sn gn g2) pn2 sn2 gn2 =
      treeValueSpec site pn2 sn2 gn2 := by
  unfold treeValueSpec updateGroupSpec lookupKey
  rw [find?_map_keypres _ (fun x => by split <;> rfl) pn2 site]
  cases hfind : site.find? (fun q => q.1 == pn2) with
  | none => rfl
  | some q =>
    have hqpred : (q.1 == pn2) = true := by
      have hp := List.find?_some hfind
      simpa using hp
    simp only [Option.map_some', Option.some_bind]
    by_cases hqpn : (q.1 == pn) = true
    · have hpn2 : pn2 = pn := by
        have e1 : q.1 = pn2 := by simpa using hqpred
        have e2 : q.1 = pn := by simpa using hqpn
        rw [← e1, e2]
      rw [if_pos hqpn]
      have hne2 : sn2 ≠ sn ∨ gn2 ≠ gn := by
        rcases hne with h | h | h
        · exact absurd hpn2 h
        · exact Or.inl h
        · exact Or.inr h
      simp only []
      rw [find?_map_keypres _ (fun x => by split <;> rfl) sn2 q.2.sections]
      cases hf2 : q.2.sections.find? (fun s => s.1 == sn2) with
      | none => rfl
      | some s =>
        have hspred : (s.1 == sn2) = true := by
          have hp := List.find?_some hf2
          simpa using hp
        simp only [Option.map_some', Option.some_bind]
        by_cases hcs : (s.1 == sn) = true
        · have hsn2 : sn2 = sn := by
            have e1 : s.1 = sn2 := by simpa using hspred
            have e2 : s.1 = sn := by simpa using hcs
            rw [← e1, e2]
          have hgn2 : gn2 ≠ gn := by
            rcases hne2 with h | h
            · exact absurd hsn2 h
            · exact h
          rw [if_pos hcs]
          simp only []
          rw [find?_map_keypres _ (fun x => by split <;> rfl) gn2 s.2]
          cases hf3 : s.2.find? (fun q2 => q2.1 == gn2) with
          | none => rfl
          | some g =>
            have hgpred : (g.1 == gn2) = true := by
              have hp := List.find?_some hf3
              simpa using hp
            have hggn : (g.1 == gn) = false := by
              have e1 : g.1 = gn2 := by simpa using hgpred
              simp [e1, hgn2]
            simp only [Option.map_some', if_neg (by simp [hggn] : ¬(g.1 == gn) = true)]
        · rw [if_neg hcs]
    · rw [if_neg hqpn]

theorem treeValueSpec_update_at (site : List (String × ProductSpec))
    (pn sn gn : String) (g2 : GroupSpec)
    (h : treeValueSpec site pn sn gn ≠ none) :
    treeValueSpec (updateGroupSpec site pn sn gn g2) pn sn gn =
      some (runGroup g2) := by
  unfold treeValueSpec lookupKey at h ⊢
  unfold updateGroupSpec
  rw [find?_map_keypres _ (fun x => by split <;> rfl) pn site]
  cases hfind : site.find? (fun q => q.1 == pn) with
  | none => rw [hfind] at h; simp at h
  | some q =>
    rw [hfind] at h
    simp only [Option.map_some', Option.some_bind] at h ⊢
    cases hflag : (q.2.navOk && q.2.sectionsOk) with
    | false => rw [if_neg (by simp [hflag])] at h; simp at h
    | true =>
      rw [if_pos hflag] at h
      have hqpred : (q.1 == pn) = true := by
        have hp := List.find?_some hfind
        simpa using hp
      rw [if_pos hqpred]
      simp only []
      rw [if_pos hflag]
      rw [find?_map_keypres _ (fun x => by split <;> rfl) sn q.2.sections]
      cases hf2 : q.2.sections.find? (fun s => s.1 == sn) with
      | none => rw [hf2] at h; simp at h
      | some s =>
        rw [hf2] at h
        have hspred : (s.1 == sn) = true := by
          have hp := List.find?_some hf2
          simpa using hp
        simp only [Option.map_some', Option.some_bind] at h ⊢
        rw [if_pos hspred]
        simp only []
        rw [find?_map_keypres _ (fun x => by split <;> rfl) gn s.2]
        cases hf3 : s.2.find? (fun q2 => q2.1 == gn) with
        | none => rw [hf3] at h; simp at h
        | some g =>
          have hgpred : (g.1 == gn) = true := by
            have hp := List.find?_some hf3
            simpa using hp
          simp only [Option.map_some', if_pos hgpred]

/-- **C2 counterexample.** When the in-page extraction fails for one Group
while its navigation succeeds, the orchestrator does NOT install an error
marker at that Group: `getComponentsAndData` swallows the rejection (it
catches the error and returns `{}`), and the empty mapping is stored as
the Group's content.  The healthy sibling Group is unaffected. -/
theorem group_error_marker_counterexample :
    treeValue (scrapeTailwindPlus siteC2ex) "P" "S" "G1" =
      some (GroupNode.components []) ∧
    (∀ m, treeValue (scrapeTailwindPlus siteC2ex) "P" "S" "G1" ≠
      some (GroupNode.errorMarker m)) ∧
    treeValue (scrapeTailwindPlus siteC2ex) "P" "S" "G2" =
      some (GroupNode.components [("B", "y")]) := by
  refine ⟨rfl, ?_, rfl⟩
  intro m hm
  have h0 : treeValue (scrapeTailwindPlus siteC2ex) "P" "S" "G1" =
      some (GroupNode.components []) := rfl
  rw [h0] at hm
  simp at hm

/-- **C2 (amended).** Group-level failure isolation, as the code actually
behaves: injecting an arbitrary behaviour change at one Group of the site
leaves the final value of every other Group, Section and Category exactly
as in the unmodified run; the injected Group's node itself becomes the
outcome of its own iteration — an error marker on navigation (or go-back)
failure, but an EMPTY CONTENT MAPPING (not an error marker) when only the
in-page extraction fails. -/
theorem group_failure_isolation (site : List (String × ProductSpec))
    (pn sn gn : String) (g2 : GroupSpec) (hnodup : SiteKeysNodup site) :
    (∀ pn2 sn2 gn2, pn2 ≠ pn ∨ sn2 ≠ sn ∨ gn2 ≠ gn →
      treeValue (scrapeTailwindPlus (updateGroupSpec site pn sn gn g2))
          pn2 sn2 gn2 =
        treeValue (scrapeTailwindPlus site) pn2 sn2 gn2) ∧
    (treeValueSpec site pn sn gn ≠ none →
      treeValue (scrapeTailwindPlus (updateGroupSpec site pn sn gn g2))
          pn sn gn = some (runGroup g2)) ∧
    (g2.navOk = false →
      runGroup g2 = GroupNode.errorMarker "navigation failed") ∧
    (g2.navOk = true → g2.goBackOk = true →
      (∃ b ∈ g2.blocks, b.revealOk = false ∨ b.code = none) →
      runGroup g2 = GroupNode.components []) := by
  refine ⟨?_, ?_, ?_, ?_⟩
  · intro pn2 sn2 gn2 hne
    rw [treeValue_eq_spec _ (updateGroupSpec_nodup site pn sn gn g2 hnodup),
      treeValue_eq_spec _ hnodup,
      treeValueSpec_update_other site pn sn gn g2 pn2 sn2 gn2 hne]
  · intro hsome
    rw [treeValue_eq_spec _ (updateGroupSpec_nodup site pn sn gn g2 hnodup),
      treeValueSpec_update_at site pn sn gn g2 hsome]
  · intro h
    simp [runGroup, groupWrites, h]
  · intro h1 h2 hex
    obtain ⟨b, hb, hfail⟩ := hex
    obtain ⟨e, he⟩ := pageEvaluate_error_of_failing g2.blocks [] b hb hfail
    simp [runGroup, groupWrites, h1, h2, getComponentsAndData, he]

/-- Witness for the amended C2: injecting a navigation failure at `G1` of
the concrete site leaves `G2` untouched and turns `G1` into an error
marker. -/
theorem group_failure_isolation_witness :
    treeValue (scrapeTailwindPlus
        (updateGroupSpec siteC2ex "P" "S" "G1" ⟨"http://g1", false, [], true⟩))
        "P" "S" "G2" =
      treeValue (scrapeTailwindPlus siteC2ex) "P" "S" "G2" ∧
    treeValue (scrapeTailwindPlus
        (updateGroupSpec siteC2ex "P" "S" "G1" ⟨"http://g1", false, [], true⟩))
        "P" "S" "G1" =
      some (GroupNode.errorMarker "navigation failed") := by
  have h := group_failure_isolation siteC2ex "P" "S" "G1"
    ⟨"http://g1", false, [], true⟩ (by constructor <;> decide)
  constructor
  · exact h.1 "P" "S" "G2" (by right; right; decide)
  · rw [h.2.1 (by decide)]
    rw [h.2.2.1 rfl]

/-- **C4 counterexample.** A Group whose navigation and extraction succeed
but whose go-back then times out is mutated twice: the successfully
extracted content is stored first and then overwritten by an error
marker, which is also the value reaching the final tree. -/
theorem group_single_mutation_counterexample :
    groupWrites ⟨"http://g", true, [⟨"A", true, some "x"⟩], false⟩ =
      [GroupNode.components [("A", "x")],
       GroupNode.errorMarker "goBack failed"] ∧
    treeValue (scrapeTailwindPlus
        [("P", ⟨"http://p", true, true,
          [("S", [("G", ⟨"http://g", true, [⟨"A", true, some "x"⟩],
            false⟩)])]⟩)])
        "P" "S" "G" = some (GroupNode.errorMarker "goBack failed") :=
  ⟨rfl, rfl⟩

/-- **C4 (amended).** Mutation discipline of a Group placeholder: a
placeholder value is never written back; on navigation failure the node is
written exactly once (an error marker); on success with a successful
go-back exactly once (the content); on success with a failing go-back
exactly twice — content first, then an error marker over it.  An error
marker is never overwritten, and the node's final value is always the
last write. -/
theorem groupWrites_discipline (g : GroupSpec) :
    (∀ u, GroupNode.placeholder u ∉ groupWrites g) ∧
    (g.navOk = false →
      groupWrites g = [GroupNode.errorMarker "navigation failed"]) ∧
    (g.navOk = true → g.goBackOk = true →
      groupWrites g = [GroupNode.components (getComponentsAndData g.blocks)]) ∧
    (g.navOk = true → g.goBackOk = false →
      groupWrites g =
        [GroupNode.components (getComponentsAndData g.blocks),
         GroupNode.errorMarker "goBack failed"]) ∧
    runGroup g = (groupWrites g).getLastD (GroupNode.placeholder g.url) := by
  refine ⟨?_, ?_, ?_, ?_, rfl⟩
  · intro u hmem
    unfold groupWrites at hmem
    cases hnav : g.navOk with
    | false => rw [hnav] at hmem; simp at hmem
    | true =>
      rw [hnav] at hmem
      cases hgb : g.goBackOk with
      | false => rw [hgb] at hmem; simp at hmem
      | true => rw [hgb] at hmem; simp at hmem
  · intro h
    simp [groupWrites, h]
  · intro h1 h2
    simp [groupWrites, h1, h2]
  · intro h1 h2
    simp [groupWrites, h1, h2]

/-- Witness for the amended C4 at concrete Group behaviours. -/
theorem groupWrites_discipline_witness :
    groupWrites ⟨"u", false, [], true⟩ =
      [GroupNode.errorMarker "navigation failed"] ∧
    groupWrites ⟨"u", true, [⟨"A", true, some "x"⟩], true⟩ =
      [GroupNode.components [("A", "x")]] := by
  constructor
  · exact (groupWrites_discipline ⟨"u", false, [], true⟩).2.1 rfl
  · have h := (groupWrites_discipline
      ⟨"u", true, [⟨"A", true, some "x"⟩], true⟩).2.2.1 rfl rfl
    simpa using h

/-- **C7 counterexample.** A run with a usable cookie store whose very
first root-page navigation fails: the rejection propagates out of
`scrapeTailwindPlus`, is logged by `main().catch(console.error)`, and the
process then exits with code 0 — not a non-zero outcome. -/
theorem fatal_root_failure_counterexample :
    runMain ⟨false, false, true, true, false, siteC2ex⟩ =
      RunOutcome.completed 0 ∧
    (⟨false, false, true, true, false, siteC2ex⟩ : RunEnv).rootNavOk = false ∧
    (⟨false, false, true, true, false, siteC2ex⟩ : RunEnv).cookiesFileExists =
      true :=
  ⟨rfl, rfl, rfl⟩

/-- **C7 (amended).** Absence of a usable session credential (no `--auth`
and no cookie file) terminates the run via `process.exit(1)`, a non-zero
outcome.  Failure of the very first root-page navigation is fatal to the
run — no output is written — but the rejection is handled by
`main().catch(console.error)`, so the process exit code is 0. -/
theorem fatal_outcomes (env : RunEnv) :
    (env.helpFlag = false → env.authFlag = false →
      env.cookiesFileExists = false → runMain env = RunOutcome.exited 1) ∧
    (env.helpFlag = false → env.authFlag = false →
      env.cookiesFileExists = true → env.rootNavOk = false →
      runMain env = RunOutcome.completed 0) ∧
    (env.helpFlag = false → env.authFlag = true → env.loginOk = true →
      env.rootNavOk = false → runMain env = RunOutcome.completed 0) := by
  refine ⟨?_, ?_, ?_⟩
  · intro h1 h2 h3
    simp [runMain, handleAuthentication, h1, h2, h3]
  · intro h1 h2 h3 h4
    simp [runMain, handleAuthentication, scrapeOutcome, h1, h2, h3, h4]
  · intro h1 h2 h3 h4
    simp [runMain, handleAuthentication, scrapeOutcome, h1, h2, h3, h4]

/-- Witness for the amended C7 at concrete environments. -/
theorem fatal_outcomes_witness :
    runMain ⟨false, false, false, true, true, siteC2ex⟩ =
      RunOutcome.exited 1 ∧
    runMain ⟨false, true, true, true, false, siteC2ex⟩ =
      RunOutcome.completed 0 := by
  constructor
  · exact (fatal_outcomes ⟨false, false, false, true, true, siteC2ex⟩).1
      rfl rfl rfl
  · exact (fatal_outcomes ⟨false, true, true, true, false, siteC2ex⟩).2.2
      rfl rfl rfl rfl

theorem squeezeUnd_id : ∀ l : List Char, NoDub l → squeezeUnd l = l := by
  intro l
  induction l with
  | nil => intro _; rfl
  | cons a tl ih =>
    intro h
    cases tl with
    | nil => rfl
    | cons b rest =>
      obtain ⟨hab, h2⟩ := h
      simp only [squeezeUnd]
      rw [if_neg hab, ih h2]

theorem noDub_append : ∀ (A R : List Char),
    (∀ c ∈ A, c ≠ '_') → NoDub R → NoDub (A ++ R) := by
  intro A
  induction A with
  | nil => intro R _ h; simpa using h
  | cons a A2 ih =>
    intro R hA hR
    have hrest : NoDub (A2 ++ R) :=
      ih R (fun c hc => hA c (List.mem_cons_of_mem a hc)) hR
    rw [List.cons_append]
    revert hrest
    cases A2 ++ R with
    | nil => intro _; exact trivial
    | cons x xs =>
      exact fun hrest => ⟨fun hc => hA a (List.mem_cons_self a A2) hc.1, hrest⟩

theorem noDub_free (l : List Char) (h : ∀ c ∈ l, c ≠ '_') : NoDub l := by
  have := noDub_append l [] h trivial
  simpa using this

theorem noDub_sep_cons (x : Char) (xs : List Char) (hx : x ≠ '_')
    (h : NoDub (x :: xs)) : NoDub ('_' :: x :: xs) :=
  ⟨fun hc => hx hc.2, h⟩

theorem map_id_of_mem (f : Char → Char) :
    ∀ l : List Char, (∀ c ∈ l, f c = c) → l.map f = l := by
  intro l
  induction l with
  | nil => intro _; rfl
  | cons a tl ih =>
    intro h
    rw [List.map_cons, h a (List.mem_cons_self a tl),
      ih (fun c hc => h c (List.mem_cons_of_mem a hc))]

theorem sep_append_inj : ∀ (A1 A2 R1 R2 : List Char),
    (∀ c ∈ A1, c ≠ '_') → (∀ c ∈ A2, c ≠ '_') →
    A1 ++ '_' :: R1 = A2 ++ '_' :: R2 → A1 = A2 ∧ R1 = R2 := by
  intro A1
  induction A1 with
  | nil =>
    intro A2 R1 R2 _ hA2 heq
    cases A2 with
    | nil => simpa using heq
    | cons b A3 =>
      exfalso
      rw [List.nil_append, List.cons_append] at heq
      injection heq with hh _
      exact hA2 b (List.mem_cons_self b A3) hh.symm
  | cons a A1t ih =>
    intro A2 R1 R2 hA1 hA2 heq
    cases A2 with
    | nil =>
      exfalso
      rw [List.nil_append, List.cons_append] at heq
      injection heq with hh _
      exact hA1 a (List.mem_cons_self a A1t) hh
    | cons b A2t =>
      rw [List.cons_append, List.cons_append] at heq
      injection heq with hh ht
      obtain ⟨e1, e2⟩ := ih A2t R1 R2
        (fun c hc => hA1 c (List.mem_cons_of_mem a hc))
        (fun c hc => hA2 c (List.mem_cons_of_mem b hc)) ht
      exact ⟨by rw [hh, e1], e2⟩

theorem safeName_eq_joined (c1 s1 g1 k1 : String)
    (h1 : SafePathComponent c1) (h2 : SafePathComponent s1)
    (h3 : SafePathComponent g1) (h4 : SafePathComponent k1)
    (hlen : (c1.data ++ '_' :: (s1.data ++ '_' :: (g1.data ++ '_' :: k1.data))).length ≤ 200) :
    (safeName c1 s1 g1 k1).data =
      c1.data ++ '_' :: (s1.data ++ '_' :: (g1.data ++ '_' :: k1.data)) := by
  unfold safeName
  have hfree : ∀ c ∈ c1.data ++ '_' :: (s1.data ++ '_' :: (g1.data ++ '_' :: k1.data)),
      c ∉ unsafeChars := by
    intro c hc
    simp only [List.mem_append, List.mem_cons] at hc
    rcases hc with h | h | h | h | h | h | h
    · exact (h1.2 c h).1
    · subst h; decide
    · exact (h2.2 c h).1
    · subst h; decide
    · exact (h3.2 c h).1
    · subst h; decide
    · exact (h4.2 c h).1
  have htr : trUnsafe (c1.data ++ '_' :: (s1.data ++ '_' :: (g1.data ++ '_' :: k1.data))) =
      c1.data ++ '_' :: (s1.data ++ '_' :: (g1.data ++ '_' :: k1.data)) := by
    unfold trUnsafe
    exact map_id_of_mem _ _ (fun c hc => if_neg (hfree c hc))
  obtain ⟨kx, ktl, hkeq⟩ : ∃ x tl, k1.data = x :: tl := by
    cases hkk : k1.data with
    | nil => exact absurd hkk h4.1
    | cons x tl => exact ⟨x, tl, rfl⟩
  obtain ⟨gx, gtl, hgeq⟩ : ∃ x tl, g1.data = x :: tl := by
    cases hgg : g1.data with
    | nil => exact absurd hgg h3.1
    | cons x tl => exact ⟨x, tl, rfl⟩
  obtain ⟨sx, stl, hseq⟩ : ∃ x tl, s1.data = x :: tl := by
    cases hss : s1.data with
    | nil => exact absurd hss h2.1
    | cons x tl => exact ⟨x, tl, rfl⟩
  obtain ⟨cx, ctl, hceq⟩ : ∃ x tl, c1.data = x :: tl := by
    cases hcc : c1.data with
    | nil => exact absurd hcc h1.1
    | cons x tl => exact ⟨x, tl, rfl⟩
  have hndD : NoDub ('_' :: k1.data) := by
    rw [hkeq]
    exact noDub_sep_cons kx ktl
      ((h4.2 kx (by rw [hkeq]; exact List.mem_cons_self kx ktl)).2.1)
      (noDub_free _ (fun c hc => (h4.2 c (by rw [hkeq]; exact hc)).2.1))
  have hndC : NoDub (g1.data ++ '_' :: k1.data) :=
    noDub_append g1.data ('_' :: k1.data)
      (fun c hc => (h3.2 c hc).2.1) hndD
  have hndC2 : NoDub ('_' :: (g1.data ++ '_' :: k1.data)) := by
    rw [hgeq, List.cons_append]
    rw [hgeq, List.cons_append] at hndC
    exact noDub_sep_cons gx (gtl ++ '_' :: k1.data)
      ((h3.2 gx (by rw [hgeq]; exact List.mem_cons_self gx gtl)).2.1) hndC
  have hndB : NoDub (s1.data ++ '_' :: (g1.data ++ '_' :: k1.data)) :=
    noDub_append s1.data _ (fun c hc => (h2.2 c hc).2.1) hndC2
  have hndB2 : NoDub ('_' :: (s1.data ++ '_' :: (g1.data ++ '_' :: k1.data))) := by
    rw [hseq, List.cons_append]
    rw [hseq, List.cons_append] at hndB
    exact noDub_sep_cons sx (stl ++ '_' :: (g1.data ++ '_' :: k1.data))
      ((h2.2 sx (by rw [hseq]; exact List.mem_cons_self sx stl)).2.1) hndB
  have hndJ : NoDub (c1.data ++ '_' :: (s1.data ++ '_' :: (g1.data ++ '_' :: k1.data))) :=
    noDub_append c1.data _ (fun c hc => (h1.2 c hc).2.1) hndB2
  have hsq := squeezeUnd_id _ hndJ
  rw [htr, hsq]
  have htrim : trimLead (c1.data ++ '_' :: (s1.data ++ '_' :: (g1.data ++ '_' :: k1.data))) =
      c1.data ++ '_' :: (s1.data ++ '_' :: (g1.data ++ '_' :: k1.data)) := by
    rw [hceq, List.cons_append]
    unfold trimLead
    rw [if_neg]
    intro hc
    rcases hc with hdot | hund
    · exact (h1.2 cx (by rw [hceq]; exact List.mem_cons_self cx ctl)).2.2 hdot
    · exact (h1.2 cx (by rw [hceq]; exact List.mem_cons_self cx ctl)).2.1 hund
  rw [htrim, List.take_of_length_le hlen]

/-- **C6 counterexample.** Two distinct paths — one whose category
contains a space, one whose category contains an underscore instead —
collide on the sanitized identifier, and the collision is not the
documented fallback case. -/
theorem safeName_collision_counterexample :
    safeName "a b" "c" "d" "e" = safeName "a_b" "c" "d" "e" ∧
    ("a b" : String) ≠ ("a_b" : String) ∧
    isFallback (safeName "a b" "c" "d" "e") = false := by
  refine ⟨by decide, by decide, by decide⟩

/-- **C6 (amended).** The sanitization is not injective on arbitrary
distinct paths (see the collision above, and truncation at 200 characters
conflates long paths as well).  Injectivity does hold on the restricted
domain where it can: paths whose four components are nonempty and contain
no unsafe character, no underscore and no dot, with joined length at most
200, sanitize to themselves and therefore never collide; the fallback
substitute (timestamp and process id) applies only to all-separator
results. -/
theorem safeName_restricted_injective (c1 s1 g1 k1 c2 s2 g2 k2 : String)
    (h1 : SafePathComponent c1) (h2 : SafePathComponent s1)
    (h3 : SafePathComponent g1) (h4 : SafePathComponent k1)
    (h5 : SafePathComponent c2) (h6 : SafePathComponent s2)
    (h7 : SafePathComponent g2) (h8 : SafePathComponent k2)
    (hlen1 : (c1.data ++ '_' :: (s1.data ++ '_' :: (g1.data ++ '_' :: k1.data))).length ≤ 200)
    (hlen2 : (c2.data ++ '_' :: (s2.data ++ '_' :: (g2.data ++ '_' :: k2.data))).length ≤ 200)
    (heq : safeName c1 s1 g1 k1 = safeName c2 s2 g2 k2) :
    c1 = c2 ∧ s1 = s2 ∧ g1 = g2 ∧ k1 = k2 := by
  have e1 := safeName_eq_joined c1 s1 g1 k1 h1 h2 h3 h4 hlen1
  have e2 := safeName_eq_joined c2 s2 g2 k2 h5 h6 h7 h8 hlen2
  have hJ : c1.data ++ '_' :: (s1.data ++ '_' :: (g1.data ++ '_' :: k1.data)) =
      c2.data ++ '_' :: (s2.data ++ '_' :: (g2.data ++ '_' :: k2.data)) := by
    rw [← e1, ← e2, heq]
  obtain ⟨ec, hrest1⟩ := sep_append_inj c1.data c2.data _ _
    (fun c hc => (h1.2 c hc).2.1) (fun c hc => (h5.2 c hc).2.1) hJ
  obtain ⟨es, hrest2⟩ := sep_append_inj s1.data s2.data _ _
    (fun c hc => (h2.2 c hc).2.1) (fun c hc => (h6.2 c hc).2.1) hrest1
  obtain ⟨eg, ek⟩ := sep_append_inj g1.data g2.data _ _
    (fun c hc => (h3.2 c hc).2.1) (fun c hc => (h7.2 c hc).2.1) hrest2
  exact ⟨String.ext ec, String.ext es, String.ext eg, String.ext ek⟩

/-- Witness for the amended C6 at concrete safe paths. -/
theorem safeName_restricted_injective_witness :
    safeName "Marketing" "Page-Sections" "Hero" "Split" =
      safeName "Marketing" "Page-Sections" "Hero" "Split" ∧
    ("Marketing" : String) = "Marketing" := by
  have h := safeName_restricted_injective
    "Marketing" "Page-Sections" "Hero" "Split"
    "Marketing" "Page-Sections" "Hero" "Split"
    ⟨by decide, by decide⟩ ⟨by decide, by decide⟩
    ⟨by decide, by decide⟩ ⟨by decide, by decide⟩
    ⟨by decide, by decide⟩ ⟨by decide, by decide⟩
    ⟨by decide, by decide⟩ ⟨by decide, by decide⟩
    (by decide) (by decide) rfl
  exact ⟨rfl, h.1⟩

theorem recordFor_self (t : Json) (c s g k : String) :
    recordFor t t c s g k = none := by
  unfold recordFor
  cases h : jqPath t [c, s, g, k] with
  | error e => rfl
  | ok o => simp

theorem filterMap_none_helper {α β : Type} (f : α → Option β) (l : List α)
    (hf : ∀ a, f a = none) : l.filterMap f = [] := by
  induction l with
  | nil => rfl
  | cons a tl ih =>
    rw [List.filterMap_cons, hf a]
    exact ih

theorem abortFold_fst_nil {α : Type} (f : α → List DiffRecord × Bool)
    (hf : ∀ x, (f x).1 = []) (l : List α) : (abortFold f l).1 = [] := by
  unfold abortFold
  suffices h : ∀ acc : List DiffRecord × Bool, acc.1 = [] →
      (l.foldl (fun acc x => if acc.2 then acc else (acc.1 ++ (f x).1, (f x).2))
        acc).1 = [] from h ([], false) rfl
  induction l with
  | nil => intro acc h; exact h
  | cons x xs ih =>
    intro acc h
    rw [List.foldl_cons]
    by_cases hc : acc.2 = true
    · rw [if_pos hc]
      exact ih acc h
    · rw [if_neg hc]
      exact ih _ (by simp [h, hf x])

/-- **C9.** TreeDiffer idempotence: running the diff loop on two
identical catalog files writes no diff artifact and produces no record of
any kind — for every tree, including trees on which a failing `keys[]`
pipeline aborts the script partway (nothing has been written by then
either). -/
theorem diffScript_self (t : Json) : (diffScript t t).1 = [] := by
  unfold diffScript
  cases h : jqKeysE t [] with
  | error e => rfl
  | ok cats =>
    apply abortFold_fst_nil
    intro c
    unfold diffSubcats
    cases h2 : jqKeysE t [c] with
    | error e => rfl
    | ok secs =>
      apply abortFold_fst_nil
      intro s
      unfold diffGroups
      cases h3 : jqKeysE t [c, s] with
      | error e => rfl
      | ok grps =>
        apply abortFold_fst_nil
        intro g
        unfold diffComponents
        cases h4 : jqKeysE t [c, s, g] with
        | error e => rfl
        | ok comps =>
          exact filterMap_none_helper _ comps (fun a => recordFor_self t c s g a)

/-- **C1 counterexample.** The leaf `A/S/G/X` exists only in the old
tree.  The diff loop, which enumerates the NEW file's keys at every
level, terminates normally having produced zero records: the claimed
`Removed` record for `X` is never produced. -/
theorem removed_record_counterexample :
    diffScript oldC1ex newC1ex = ([], false) ∧
    jqPath oldC1ex ["A", "S", "G", "X"] = .ok (some (.str "x")) ∧
    jqPath newC1ex ["A", "S", "G", "X"] = .ok none :=
  ⟨rfl, rfl, rfl⟩

theorem nodupStr_iff : ∀ l : List String, nodupStr l = true ↔ l.Nodup := by
  intro l
  induction l with
  | nil => simp [nodupStr]
  | cons s rest ih => simp [nodupStr, ih, List.nodup_cons]

theorem sortKeys_mem (kvs : List (String × Json)) (c : String) :
    c ∈ (kvs.map Prod.fst).insertionSort (fun a b => strLe a b = true) ↔
      c ∈ kvs.map Prod.fst :=
  (List.perm_insertionSort _ _).mem_iff

theorem sortKeys_nodup (kvs : List (String × Json))
    (h : nodupStr (kvs.map Prod.fst) = true) :
    ((kvs.map Prod.fst).insertionSort (fun a b => strLe a b = true)).Nodup :=
  ((List.perm_insertionSort _ _).nodup_iff).mpr ((nodupStr_iff _).mp h)

theorem find?_mem_keys {β : Type} (kvs : List (String × β)) (c : String)
    (h : c ∈ kvs.map Prod.fst) :
    ∃ v, kvs.find? (fun q => q.1 == c) = some (c, v) ∧ (c, v) ∈ kvs := by
  induction kvs with
  | nil => simp at h
  | cons x xs ih =>
    by_cases hx : x.1 = c
    · refine ⟨x.2, ?_, ?_⟩
      · have hfind : List.find? (fun q => q.1 == c) (x :: xs) = some x := by
          simp [List.find?, hx]
        rw [hfind, ← hx]
      · rw [← hx]
        exact List.mem_cons_self x xs
    · have h2 : c ∈ xs.map Prod.fst := by
        simp only [List.map_cons, List.mem_cons] at h
        rcases h with h | h
        · exact absurd h.symm hx
        · exact h
      obtain ⟨v, hf, hm⟩ := ih h2
      refine ⟨v, ?_, List.mem_cons_of_mem x hm⟩
      have hbeq : (x.1 == c) = false := beq_eq_false_iff_ne.mpr hx
      have hfind : List.find? (fun q => q.1 == c) (x :: xs) =
          List.find? (fun q => q.1 == c) xs := by
        simp [List.find?, hbeq]
      rw [hfind, hf]

theorem jqPathFrom_append (ks1 : List String) :
    ∀ (v : Option Json) (ks2 : List String),
      jqPathFrom v (ks1 ++ ks2) =
        match jqPathFrom v ks1 with
        | .error e => .error e
        | .ok v2 => jqPathFrom v2 ks2 := by
  induction ks1 with
  | nil => intro v ks2; rfl
  | cons k ks ih =>
    intro v ks2
    simp only [List.cons_append, jqPathFrom]
    cases jqIndex v k with
    | error e => rfl
    | ok v2 => exact ih v2 ks2

theorem jqPath_step (new : Json) (ks : List String) (kvs : List (String × Json))
    (k : String) (v : Json)
    (hpath : jqPath new ks = .ok (some (.obj kvs)))
    (hfind : kvs.find? (fun q => q.1 == k) = some (k, v)) :
    jqPath new (ks ++ [k]) = .ok (some v) := by
  unfold jqPath at hpath ⊢
  rw [jqPathFrom_append ks (some new) [k], hpath]
  show jqPathFrom (some (Json.obj kvs)) [k] = .ok (some v)
  simp [jqPathFrom, jqIndex, hfind]

theorem recordFor_path (old new : Json) (c s g k : String) (rec : DiffRecord)
    (h : recordFor old new c s g k = some rec) : rec.path = [c, s, g, k] := by
  unfold recordFor at h
  split at h
  · split at h
    · exact Option.noConfusion h
    · simp only [Option.some.injEq] at h
      subst h
      rfl
  · exact Option.noConfusion h

theorem nodup_map_filterMap_paths (old new : Json) (c s g : String) :
    ∀ l : List String, l.Nodup →
      ((l.filterMap (recordFor old new c s g)).map DiffRecord.path).Nodup := by
  intro l
  induction l with
  | nil => intro _; simp
  | cons a tl ih =>
    intro hl
    rw [List.nodup_cons] at hl
    rw [List.filterMap_cons]
    cases hfa : recordFor old new c s g a with
    | none => exact ih hl.2
    | some b =>
      rw [List.map_cons, List.nodup_cons]
      refine ⟨?_, ih hl.2⟩
      intro hmem
      obtain ⟨rec2, hmem2, heq2⟩ := List.mem_map.mp hmem
      obtain ⟨a2, ha2, hfa2⟩ := List.mem_filterMap.mp hmem2
      have h1 : rec2.path = [c, s, g, a2] := recordFor_path old new c s g a2 rec2 hfa2
      have h2 : b.path = [c, s, g, a] := recordFor_path old new c s g a b hfa
      rw [h1, h2] at heq2
      simp only [List.cons.injEq, and_true, true_and] at heq2
      exact hl.1 (heq2 ▸ ha2)

theorem abortFold_ok {α : Type} (f : α → List DiffRecord × Bool) :
    ∀ (l : List α), (∀ x ∈ l, (f x).2 = false) →
      ∀ acc : List DiffRecord,
        l.foldl (fun acc x => if acc.2 then acc else (acc.1 ++ (f x).1, (f x).2))
          (acc, false) =
        (acc ++ l.flatMap (fun x => (f x).1), false) := by
  intro l
  induction l with
  | nil => intro _ acc; simp
  | cons x xs ih =>
    intro hf acc
    have h2 : (f x).2 = false := hf x (List.mem_cons_self x xs)
    have hstep : (x :: xs).foldl
        (fun acc x => if acc.2 then acc else (acc.1 ++ (f x).1, (f x).2))
        (acc, false) =
        xs.foldl (fun acc x => if acc.2 then acc else (acc.1 ++ (f x).1, (f x).2))
          (acc ++ (f x).1, false) := by
      rw [List.foldl_cons]
      congr 1
      simp [h2]
    rw [hstep, ih (fun y hy => hf y (List.mem_cons_of_mem x hy)) (acc ++ (f x).1)]
    simp [List.flatMap_cons, List.append_assoc]

theorem abortFold_eq {α : Type} (f : α → List DiffRecord × Bool) (l : List α)
    (hf : ∀ x ∈ l, (f x).2 = false) :
    abortFold f l = (l.flatMap (fun x => (f x).1), false) := by
  unfold abortFold
  simpa using abortFold_ok f l hf []

theorem map_flatMap_helper {β γ : Type} (g : β → γ) (F : String → List β) :
    ∀ l : List String, (l.flatMap F).map g = l.flatMap (fun x => (F x).map g) := by
  intro l
  induction l with
  | nil => rfl
  | cons x xs ih => simp [List.flatMap_cons, ih]

theorem nodup_flatMap_keyed {β : Type} (F : String → List β) (pick : β → String) :
    ∀ keys : List String, keys.Nodup →
      (∀ x ∈ keys, (F x).Nodup) →
      (∀ x ∈ keys, ∀ b ∈ F x, pick b = x) →
      (keys.flatMap F).Nodup := by
  intro keys
  induction keys with
  | nil => intro _ _ _; simp
  | cons x xs ih =>
    intro hnd hFn htag
    rw [List.nodup_cons] at hnd
    rw [List.flatMap_cons, List.nodup_append]
    refine ⟨hFn x (List.mem_cons_self x xs),
            ih hnd.2 (fun y hy => hFn y (List.mem_cons_of_mem x hy))
              (fun y hy => htag y (List.mem_cons_of_mem x hy)), ?_⟩
    intro b hb1 hb2
    obtain ⟨x2, hx2, hbx2⟩ := List.mem_flatMap.mp hb2
    have e1 : pick b = x := htag x (List.mem_cons_self x xs) b hb1
    have e2 : pick b = x2 := htag x2 (List.mem_cons_of_mem x hx2) b hbx2
    exact hnd.1 (by rw [← e1, e2]; exact hx2)

theorem abortFold_level (I : String → List DiffRecord × Bool)
    (keys : List String) (pick : List String → String)
    (hok : ∀ x ∈ keys, (I x).2 = false)
    (hnd : keys.Nodup)
    (hinner : ∀ x ∈ keys, (((I x).1).map DiffRecord.path).Nodup)
    (htag : ∀ x ∈ keys, ∀ rec ∈ (I x).1, pick rec.path = x) :
    (abortFold I keys).2 = false ∧
    (((abortFold I keys).1).map DiffRecord.path).Nodup ∧
    ∀ rec, rec ∈ (abortFold I keys).1 ↔ ∃ x, x ∈ keys ∧ rec ∈ (I x).1 := by
  rw [abortFold_eq I keys hok]
  refine ⟨rfl, ?_, ?_⟩
  · show ((keys.flatMap (fun x => (I x).1)).map DiffRecord.path).Nodup
    rw [map_flatMap_helper]
    apply nodup_flatMap_keyed (fun x => ((I x).1).map DiffRecord.path) pick keys hnd hinner
    intro x hx p hp
    obtain ⟨rec, hrec, hrp⟩ := List.mem_map.mp hp
    rw [← hrp]
    exact htag x hx rec hrec
  · intro rec
    show rec ∈ keys.flatMap (fun x => (I x).1) ↔ _
    rw [List.mem_flatMap]

theorem diffComponents_spec (old new : Json) (c s g : String)
    (comps : List (String × Json))
    (hpath : jqPath new [c, s, g] = .ok (some (.obj comps)))
    (hnd : nodupStr (comps.map Prod.fst) = true) :
    (diffComponents old new c s g).2 = false ∧
    (((diffComponents old new c s g).1).map DiffRecord.path).Nodup ∧
    ∀ rec, rec ∈ (diffComponents old new c s g).1 ↔
      ∃ k, (∃ kl, jqKeysE new [c, s, g] = .ok kl ∧ k ∈ kl) ∧
        recordFor old new c s g k = some rec := by
  have hkeys : jqKeysE new [c, s, g] =
      .ok ((comps.map Prod.fst).insertionSort (fun a b => strLe a b = true)) := by
    unfold jqKeysE
    rw [hpath]
  have hD : diffComponents old new c s g =
      (((comps.map Prod.fst).insertionSort (fun a b => strLe a b = true)).filterMap
        (recordFor old new c s g), false) := by
    unfold diffComponents
    rw [hkeys]
  rw [hD]
  refine ⟨rfl, ?_, ?_⟩
  · exact nodup_map_filterMap_paths old new c s g _ (sortKeys_nodup comps hnd)
  · intro rec
    constructor
    · intro hmem
      obtain ⟨k, hk, hrk⟩ := List.mem_filterMap.mp hmem
      exact ⟨k, ⟨_, hkeys, hk⟩, hrk⟩
    · rintro ⟨k, ⟨kl, hkl, hkkl⟩, hrk⟩
      rw [hkeys] at hkl
      injection hkl with hkl
      subst hkl
      exact List.mem_filterMap.mpr ⟨k, hkkl, hrk⟩

theorem diffGroups_spec (old new : Json) (c s : String)
    (grps : List (String × Json))
    (hpath : jqPath new [c, s] = .ok (some (.obj grps)))
    (hnd : nodupStr (grps.map Prod.fst) = true)
    (hwfg : ∀ gv ∈ grps, wfGroup gv.2 = true) :
    (diffGroups old new c s).2 = false ∧
    (((diffGroups old new c s).1).map DiffRecord.path).Nodup ∧
    ∀ rec, rec ∈ (diffGroups old new c s).1 ↔
      ∃ g k, (∃ gl, jqKeysE new [c, s] = .ok gl ∧ g ∈ gl) ∧
        (∃ kl, jqKeysE new [c, s, g] = .ok kl ∧ k ∈ kl) ∧
        recordFor old new c s g k = some rec := by
  have hkeys : jqKeysE new [c, s] =
      .ok ((grps.map Prod.fst).insertionSort (fun a b => strLe a b = true)) := by
    unfold jqKeysE
    rw [hpath]
  have hsub : ∀ g ∈ (grps.map Prod.fst).insertionSort (fun a b => strLe a b = true),
      ∃ comps : List (String × Json),
        jqPath new [c, s, g] = .ok (some (.obj comps)) ∧
        nodupStr (comps.map Prod.fst) = true := by
    intro g hg
    have hg2 : g ∈ grps.map Prod.fst := (sortKeys_mem grps g).mp hg
    obtain ⟨gv, hfind, hmem⟩ := find?_mem_keys grps g hg2
    have hwf : wfGroup gv = true := hwfg (g, gv) hmem
    cases gv with
    | str t => simp [wfGroup] at hwf
    | obj comps =>
      exact ⟨comps, jqPath_step new [c, s] grps g (.obj comps) hpath hfind, hwf⟩
  have hD : diffGroups old new c s =
      abortFold (diffComponents old new c s)
        ((grps.map Prod.fst).insertionSort (fun a b => strLe a b = true)) := by
    unfold diffGroups
    rw [hkeys]
  have hok : ∀ g ∈ (grps.map Prod.fst).insertionSort (fun a b => strLe a b = true),
      (diffComponents old new c s g).2 = false := by
    intro g hg
    obtain ⟨comps, hpg, hndg⟩ := hsub g hg
    exact (diffComponents_spec old new c s g comps hpg hndg).1
  have hinner : ∀ g ∈ (grps.map Prod.fst).insertionSort (fun a b => strLe a b = true),
      (((diffComponents old new c s g).1).map DiffRecord.path).Nodup := by
    intro g hg
    obtain ⟨comps, hpg, hndg⟩ := hsub g hg
    exact (diffComponents_spec old new c s g comps hpg hndg).2.1
  have htag : ∀ g ∈ (grps.map Prod.fst).insertionSort (fun a b => strLe a b = true),
      ∀ rec ∈ (diffComponents old new c s g).1, rec.path.getD 2 "" = g := by
    intro g hg rec hrec
    obtain ⟨comps, hpg, hndg⟩ := hsub g hg
    obtain ⟨k, _, hrk⟩ :=
      ((diffComponents_spec old new c s g comps hpg hndg).2.2 rec).mp hrec
    rw [recordFor_path old new c s g k rec hrk]
    rfl
  obtain ⟨hA2, hAnd, hAmem⟩ :=
    abortFold_level (diffComponents old new c s)
      ((grps.map Prod.fst).insertionSort (fun a b => strLe a b = true))
      (fun p => p.getD 2 "") hok (sortKeys_nodup grps hnd) hinner htag
  refine ⟨by rw [hD]; exact hA2, by rw [hD]; exact hAnd, ?_⟩
  intro rec
  rw [hD, hAmem rec]
  constructor
  · rintro ⟨g, hgS, hrecg⟩
    obtain ⟨comps, hpg, hndg⟩ := hsub g hgS
    obtain ⟨k, hkk, hrk⟩ :=
      ((diffComponents_spec old new c s g comps hpg hndg).2.2 rec).mp hrecg
    exact ⟨g, k, ⟨_, hkeys, hgS⟩, hkk, hrk⟩
  · rintro ⟨g, k, ⟨gl, hgl, hggl⟩, hkk, hrk⟩
    rw [hkeys] at hgl
    injection hgl with hgl
    subst hgl
    obtain ⟨comps, hpg, hndg⟩ := hsub g hggl
    exact ⟨g, hggl,
      ((diffComponents_spec old new c s g comps hpg hndg).2.2 rec).mpr ⟨k, hkk, hrk⟩⟩

theorem diffSubcats_spec (old new : Json) (c : String)
    (secs : List (String × Json))
    (hpath : jqPath new [c] = .ok (some (.obj secs)))
    (hnd : nodupStr (secs.map Prod.fst) = true)
    (hwfs : ∀ sv ∈ secs, wfSection sv.2 = true) :
    (diffSubcats old new c).2 = false ∧
    (((diffSubcats old new c).1).map DiffRecord.path).Nodup ∧
    ∀ rec, rec ∈ (diffSubcats old new c).1 ↔
      ∃ s g k, (∃ sl, jqKeysE new [c] = .ok sl ∧ s ∈ sl) ∧
        (∃ gl, jqKeysE new [c, s] = .ok gl ∧ g ∈ gl) ∧
        (∃ kl, jqKeysE new [c, s, g] = .ok kl ∧ k ∈ kl) ∧
        recordFor old new c s g k = some rec := by
  have hkeys : jqKeysE new [c] =
      .ok ((secs.map Prod.fst).insertionSort (fun a b => strLe a b = true)) := by
    unfold jqKeysE
    rw [hpath]
  have hsub : ∀ s ∈ (secs.map Prod.fst).insertionSort (fun a b => strLe a b = true),
      ∃ grps : List (String × Json),
        jqPath new [c, s] = .ok (some (.obj grps)) ∧
        nodupStr (grps.map Prod.fst) = true ∧
        ∀ gv ∈ grps, wfGroup gv.2 = true := by
    intro s hs
    have hs2 : s ∈ secs.map Prod.fst := (sortKeys_mem secs s).mp hs
    obtain ⟨sv, hfind, hmem⟩ := find?_mem_keys secs s hs2
    have hwf : wfSection sv = true := hwfs (s, sv) hmem
    cases sv with
    | str t => simp [wfSection] at hwf
    | obj grps =>
      simp only [wfSection, Bool.and_eq_true, List.all_eq_true] at hwf
      exact ⟨grps, jqPath_step new [c] secs s (.obj grps) hpath hfind, hwf.1,
        fun gv hgv => by simpa using hwf.2 gv hgv⟩
  have hD : diffSubcats old new c =
      abortFold (diffGroups old new c)
        ((secs.map Prod.fst).insertionSort (fun a b => strLe a b = true)) := by
    unfold diffSubcats
    rw [hkeys]
  have hok : ∀ s ∈ (secs.map Prod.fst).insertionSort (fun a b => strLe a b = true),
      (diffGroups old new c s).2 = false := by
    intro s hs
    obtain ⟨grps, hpg, hndg, hwfg⟩ := hsub s hs
    exact (diffGroups_spec old new c s grps hpg hndg hwfg).1
  have hinner : ∀ s ∈ (secs.map Prod.fst).insertionSort (fun a b => strLe a b = true),
      (((diffGroups old new c s).1).map DiffRecord.path).Nodup := by
    intro s hs
    obtain ⟨grps, hpg, hndg, hwfg⟩ := hsub s hs
    exact (diffGroups_spec old new c s grps hpg hndg hwfg).2.1
  have htag : ∀ s ∈ (secs.map Prod.fst).insertionSort (fun a b => strLe a b = true),
      ∀ rec ∈ (diffGroups old new c s).1, rec.path.getD 1 "" = s := by
    intro s hs rec hrec
    obtain ⟨grps, hpg, hndg, hwfg⟩ := hsub s hs
    obtain ⟨g, k, _, _, hrk⟩ :=
      ((diffGroups_spec old new c s grps hpg hndg hwfg).2.2 rec).mp hrec
    rw [recordFor_path old new c s g k rec hrk]
    rfl
  obtain ⟨hA2, hAnd, hAmem⟩ :=
    abortFold_level (diffGroups old new c)
      ((secs.map Prod.fst).insertionSort (fun a b => strLe a b = true))
      (fun p => p.getD 1 "") hok (sortKeys_nodup secs hnd) hinner htag
  refine ⟨by rw [hD]; exact hA2, by rw [hD]; exact hAnd, ?_⟩
  intro rec
  rw [hD, hAmem rec]
  constructor
  · rintro ⟨s, hsS, hrecs⟩
    obtain ⟨grps, hpg, hndg, hwfg⟩ := hsub s hsS
    obtain ⟨g, k, hgg, hkk, hrk⟩ :=
      ((diffGroups_spec old new c s grps hpg hndg hwfg).2.2 rec).mp hrecs
    exact ⟨s, g, k, ⟨_, hkeys, hsS⟩, hgg, hkk, hrk⟩
  · rintro ⟨s, g, k, ⟨sl, hsl, hssl⟩, hgg, hkk, hrk⟩
    rw [hkeys] at hsl
    injection hsl with hsl
    subst hsl
    obtain ⟨grps, hpg, hndg, hwfg⟩ := hsub s hssl
    exact ⟨s, hssl,
      ((diffGroups_spec old new c s grps hpg hndg hwfg).2.2 rec).mpr ⟨g, k, hgg, hkk, hrk⟩⟩

/-- **C1 (amended).** The diff loop enumerates the NEW file's keys at
every level, so for a well-formed new file the run never aborts, the
written artifacts carry pairwise-distinct component paths (each path
yields at most one artifact), and an artifact exists exactly for the
component paths reachable through the new file's keys on which both
extractions succeed and the rendered texts differ.  A leaf whose key path
exists only in the old file is never enumerated: no `Removed` record is
ever produced. -/
theorem diffScript_characterization (old new : Json) (hwf : wfNew new = true) :
    (diffScript old new).2 = false ∧
    (((diffScript old new).1).map DiffRecord.path).Nodup ∧
    ∀ rec, rec ∈ (diffScript old new).1 ↔
      ∃ c s g k,
        (∃ cl, jqKeysE new [] = .ok cl ∧ c ∈ cl) ∧
        (∃ sl, jqKeysE new [c] = .ok sl ∧ s ∈ sl) ∧
        (∃ gl, jqKeysE new [c, s] = .ok gl ∧ g ∈ gl) ∧
        (∃ kl, jqKeysE new [c, s, g] = .ok kl ∧ k ∈ kl) ∧
        recordFor old new c s g k = some rec := by
  cases new with
  | str t => simp [wfNew] at hwf
  | obj cats =>
    simp only [wfNew, Bool.and_eq_true, List.all_eq_true] at hwf
    obtain ⟨hndC, hallC⟩ := hwf
    have hkeys : jqKeysE (Json.obj cats) [] =
        .ok ((cats.map Prod.fst).insertionSort (fun a b => strLe a b = true)) := rfl
    have hsub : ∀ c ∈ (cats.map Prod.fst).insertionSort (fun a b => strLe a b = true),
        ∃ secs : List (String × Json),
          jqPath (Json.obj cats) [c] = .ok (some (.obj secs)) ∧
          nodupStr (secs.map Prod.fst) = true ∧
          ∀ sv ∈ secs, wfSection sv.2 = true := by
      intro c hc
      have hc2 : c ∈ cats.map Prod.fst := (sortKeys_mem cats c).mp hc
      obtain ⟨cv, hfind, hmem⟩ := find?_mem_keys cats c hc2
      have hwfc : wfCategory cv = true := by simpa using hallC (c, cv) hmem
      cases cv with
      | str t => simp [wfCategory] at hwfc
      | obj secs =>
        simp only [wfCategory, Bool.and_eq_true, List.all_eq_true] at hwfc
        refine ⟨secs, ?_, hwfc.1, fun sv hsv => by simpa using hwfc.2 sv hsv⟩
        simp [jqPath, jqPathFrom, jqIndex, hfind]
    have hD : diffScript old (Json.obj cats) =
        abortFold (diffSubcats old (Json.obj cats))
          ((cats.map Prod.fst).insertionSort (fun a b => strLe a b = true)) := by
      unfold diffScript
      rw [hkeys]
    have hok : ∀ c ∈ (cats.map Prod.fst).insertionSort (fun a b => strLe a b = true),
        (diffSubcats old (Json.obj cats) c).2 = false := by
      intro c hc
      obtain ⟨secs, hp, hnd2, hwf2⟩ := hsub c hc
      exact (diffSubcats_spec old (Json.obj cats) c secs hp hnd2 hwf2).1
    have hinner : ∀ c ∈ (cats.map Prod.fst).insertionSort (fun a b => strLe a b = true),
        (((diffSubcats old (Json.obj cats) c).1).map DiffRecord.path).Nodup := by
      intro c hc
      obtain ⟨secs, hp, hnd2, hwf2⟩ := hsub c hc
      exact (diffSubcats_spec old (Json.obj cats) c secs hp hnd2 hwf2).2.1
    have htag : ∀ c ∈ (cats.map Prod.fst).insertionSort (fun a b => strLe a b = true),
        ∀ rec ∈ (diffSubcats old (Json.obj cats) c).1, rec.path.getD 0 "" = c := by
      intro c hc rec hrec
      obtain ⟨secs, hp, hnd2, hwf2⟩ := hsub c hc
      obtain ⟨s, g, k, _, _, _, hrk⟩ :=
        ((diffSubcats_spec old (Json.obj cats) c secs hp hnd2 hwf2).2.2 rec).mp hrec
      rw [recordFor_path old (Json.obj cats) c s g k rec hrk]
      rfl
    obtain ⟨hA2, hAnd, hAmem⟩ :=
      abortFold_level (diffSubcats old (Json.obj cats))
        ((cats.map Prod.fst).insertionSort (fun a b => strLe a b = true))
        (fun p => p.getD 0 "") hok (sortKeys_nodup cats hndC) hinner htag
    refine ⟨by rw [hD]; exact hA2, by rw [hD]; exact hAnd, ?_⟩
    intro rec
    rw [hD, hAmem rec]
    constructor
    · rintro ⟨c, hcS, hrc⟩
      obtain ⟨secs, hp, hnd2, hwf2⟩ := hsub c hcS
      obtain ⟨s, g, k, hs, hg, hk, hr⟩ :=
        ((diffSubcats_spec old (Json.obj cats) c secs hp hnd2 hwf2).2.2 rec).mp hrc
      exact ⟨c, s, g, k, ⟨_, hkeys, hcS⟩, hs, hg, hk, hr⟩
    · rintro ⟨c, s, g, k, ⟨cl, hcl, hccl⟩, hs, hg, hk, hr⟩
      rw [hkeys] at hcl
      injection hcl with hcl
      subst hcl
      obtain ⟨secs, hp, hnd2, hwf2⟩ := hsub c hccl
      exact ⟨c, hccl,
        ((diffSubcats_spec old (Json.obj cats) c secs hp hnd2 hwf2).2.2 rec).mpr
          ⟨s, g, k, hs, hg, hk, hr⟩⟩

theorem diffScript_characterization_witness :
    wfNew newC1ex = true ∧
    ((diffScript oldC1ex newC1ex).2 = false ∧
     (((diffScript oldC1ex newC1ex).1).map DiffRecord.path).Nodup ∧
     ∀ rec, rec ∈ (diffScript oldC1ex newC1ex).1 ↔
       ∃ c s g k,
         (∃ cl, jqKeysE newC1ex [] = .ok cl ∧ c ∈ cl) ∧
         (∃ sl, jqKeysE newC1ex [c] = .ok sl ∧ s ∈ sl) ∧
         (∃ gl, jqKeysE newC1ex [c, s] = .ok gl ∧ g ∈ gl) ∧
         (∃ kl, jqKeysE newC1ex [c, s, g] = .ok kl ∧ k ∈ kl) ∧
         recordFor oldC1ex newC1ex c s g k = some rec) :=
  ⟨by decide, diffScript_characterization oldC1ex newC1ex (by decide)⟩
